import Mathlib

/-!
# Verification of the reuse-distance estimators of `reuse_distance.H`

This file gives a shallow embedding of the two reuse-distance trackers of
`pinkit/sde-example/include/reuse_distance.H`:

* `RD_Treap` — the exact "Recency Tree": a binary tree over previously seen
  addresses whose preorder traversal lists addresses from most- to
  least-recently referenced, with stored subtree counts (`_count`) and a
  deterministic move-to-root restructuring;
* `RD_LogRR` — the "Tiered Pool Approximator": a `MAX_SIZE`-slot array split
  into exponentially growing pools with per-tier round-robin eviction
  cursors and a position map.

Pointer structure is embedded functionally: a node's `_parent` chain is
represented by its context (the list of `Frame`s from the node up to the
root), the C++ in-place link surgery becomes pure tree reconstruction, and
`std::map` / `std::vector` become functions `ℕ → Option ℕ` / `ℕ → ℕ`.
Machine integers (`UINT64`, `UINT32`) are embedded as `ℕ`; none of the
verified quantities can reach `2^64` on inputs the C++ can represent
(counts are bounded by the number of distinct `UINT64` addresses, slot
indices by `MAX_SIZE = 2^24`).
-/

namespace ReuseDistance

/-! ## `lzcount` and `int_log2` (lines 12-60 of the source) -/

/-- `lzcount` from the source: count of leading zero bits of a 64-bit value,
translated branch by branch (each C `if (y != 0) { n -= s; x = y; }` stage
becomes a pair of `let`-bound conditionals). -/
def lzcount (v : ℕ) : ℕ :=
  if v = 0 then 64
  else
    let n := 64
    let x := v
    let y := x >>> 32
    let n := if y ≠ 0 then n - 32 else n
    let x := if y ≠ 0 then y else x
    let y := x >>> 16
    let n := if y ≠ 0 then n - 16 else n
    let x := if y ≠ 0 then y else x
    let y := x >>> 8
    let n := if y ≠ 0 then n - 8 else n
    let x := if y ≠ 0 then y else x
    let y := x >>> 4
    let n := if y ≠ 0 then n - 4 else n
    let x := if y ≠ 0 then y else x
    let y := x >>> 2
    let n := if y ≠ 0 then n - 2 else n
    let x := if y ≠ 0 then y else x
    let y := x >>> 1
    if y ≠ 0 then n - 2 else n - x

/-- `int_log2` from the source: `sizeof(UINT64) * 8 - 1 - lzcount(v)`. -/
def int_log2 (v : ℕ) : ℕ := 64 - 1 - lzcount v

/-- The `INT_MAX` sentinel used by `RD_Treap::reference` for first touches. -/
def INT_MAX : ℕ := 2 ^ 31 - 1

/-! ## The Recency Tree (`RD_Treap`)

A `Node` stores its address and its `_count` field; `_left`/`_right` are the
subtrees, and `_parent` is implicit (a node's ancestors are carried
explicitly as a `Frame` context wherever the C++ walks parent pointers). -/

/-- Binary tree of nodes: address, stored `_count`, left and right child.
`nil` is the C++ null pointer. -/
inductive T : Type
  | nil : T
  | nd (a : ℕ) (c : ℕ) (l r : T) : T
  deriving DecidableEq, Repr

namespace T

/-- The stored `_count` of a node (`0` for a null pointer, as in the C++
reads `_left ? _left->_count : 0`). -/
def cnt : T → ℕ
  | nil => 0
  | nd _ c _ _ => c

/-- `updateCount(false)` applied while rebuilding a node from children:
`_count = (_left ? _left->_count : 0) + 1 + (_right ? _right->_count : 0)`. -/
def mk (a : ℕ) (l r : T) : T := nd a (cnt l + 1 + cnt r) l r

/-- Preorder traversal: the node, then its left subtree, then its right
subtree.  The source documents this as the recency (stack-distance) order. -/
def preorder : T → List ℕ
  | nil => []
  | nd a _ l r => a :: (preorder l ++ preorder r)

/-- `Node::stealChild(fromNode)`: returns the child stolen for the caller's
`_right` slot together with the updated `fromNode`.  Mirrors the source: if
`fromNode->_right` exists the caller takes it, `fromNode` clears its right
slot and (if it has a left child) recursively steals from it; otherwise the
caller takes `fromNode->_left`.  Counts are refreshed bottom-up via `mk`. -/
def stealChild : T → T × T
  | nil => (nil, nil)
  | nd a _ l r =>
    match r with
    | nd rb rc rl rr =>
      match l with
      | nd lb lc ll lr =>
        let q := stealChild (nd lb lc ll lr)
        (nd rb rc rl rr, mk a q.2 q.1)
      | nil => (nd rb rc rl rr, mk a nil nil)
    | nil => (l, mk a nil nil)

/-- `Node::insertAtRoot(currentRoot)`: the new node takes the current root
as its left child and steals one of the root's children as its right child. -/
def insertAtRoot (x : ℕ) (t : T) : T :=
  let q := stealChild t
  mk x q.2 q.1

/-- One step of the implicit parent chain: the node is the
left (`isRight = false`) or right (`isRight = true`) child of a parent with
address `pa`, stored count `pcnt`, and other subtree `sib`. -/
structure Frame : Type where
  isRight : Bool
  pa : ℕ
  pcnt : ℕ
  sib : T
  deriving DecidableEq, Repr

/-- Reattach a subtree along its context, keeping every ancestor's stored
count (pure reconstruction of the unmodified surrounding tree). -/
def plug : T → List Frame → T
  | t, [] => t
  | t, f :: rest =>
    plug (if f.isRight then nd f.pa f.pcnt f.sib t else nd f.pa f.pcnt t f.sib) rest

/-- Reattach a subtree along its context while refreshing every ancestor's
count, exactly `_parent->updateCount(true)` after a splice. -/
def rebuild : T → List Frame → T
  | t, [] => t
  | t, f :: rest =>
    rebuild (if f.isRight then mk f.pa f.sib t else mk f.pa t f.sib) rest

/-- `Node::moveToRoot(currentRoot)` as a function of the node and its
context.  Each loop iteration: with at most one child the node is spliced
out (its child takes its place, ancestor counts refreshed recursively) and
re-inserted at the root; with two children it rotates past its parent,
refreshing the two touched counts, and continues with one context frame
fewer. -/
def moveToRoot : T → List Frame → T
  | t, [] => t
  | nil, _ :: _ => nil
  | nd x _ l r, f :: rest =>
    if l = nil ∨ r = nil then
      -- Node* child = _left ? _left : _right;  splice out, then insertAtRoot
      insertAtRoot x (rebuild (if l ≠ nil then l else r) (f :: rest))
    else
      if f.isRight then
        -- right child: this->setLeft(parent); parent->setRight(left)
        moveToRoot (mk x (mk f.pa f.sib l) r) rest
      else
        -- left child: this->setLeft(parent); this->setRight(parent->_right);
        -- parent->setLeft(left); parent->setRight(right)
        moveToRoot (mk x (mk f.pa l r) f.sib) rest

/-- The `while (_parent)` loop of `moveToRoot` with an explicit iteration
budget, returning `none` when the budget is exhausted.  Used to state the
termination claim about the C++ loop. -/
def moveToRootF : ℕ → T → List Frame → Option T
  | 0, _, _ => none
  | _ + 1, t, [] => some t
  | _ + 1, nil, _ :: _ => some nil
  | fuel + 1, nd x _ l r, f :: rest =>
    if l = nil ∨ r = nil then
      some (insertAtRoot x (rebuild (if l ≠ nil then l else r) (f :: rest)))
    else
      if f.isRight then
        moveToRootF fuel (mk x (mk f.pa f.sib l) r) rest
      else
        moveToRootF fuel (mk x (mk f.pa l r) f.sib) rest

/-- Locate the (unique) node carrying address `x`, returning its context,
stored count and children.  This models dereferencing `_map[address]`:
the C++ map hands back a pointer to the node, which together with its
parent chain is exactly this data. -/
def findPath (x : ℕ) : T → List Frame → Option (List Frame × ℕ × T × T)
  | nil, _ => none
  | nd a c l r, acc =>
    if a = x then some (acc, c, l, r)
    else
      match findPath x l (⟨false, a, c, r⟩ :: acc) with
      | some res => some res
      | none => findPath x r (⟨true, a, c, l⟩ :: acc)

/-- `Node::computePosition()` on a context: rank 1 at the root; a left child
is one past its parent; a right child is one past `parent->sumLeft()`,
i.e. the parent's position plus the parent's left subtree count. -/
def computePosition : List Frame → ℕ
  | [] => 1
  | f :: rest =>
    if f.isRight then (computePosition rest + cnt f.sib) + 1
    else computePosition rest + 1

end T

/-- State of an `RD_Treap`: the root of the recency tree and the key set of
`_map` (keys are inserted on first reference and never erased; the mapped
node pointer is recovered by `findPath`). -/
structure TS : Type where
  root : T
  seen : List ℕ
  deriving DecidableEq, Repr

/-- The empty tracker `RD_Treap()`. -/
def TS.init : TS := ⟨T.nil, []⟩

/-- `RD_Treap::reference(address)`: for a known address, compute its
position (the exact reuse distance) and move its node to the root; for an
unknown address, create a node with infinite distance `INT_MAX` and insert
it at the root.  Returns `int_log2(dist)` and the new state. -/
def referenceT (x : ℕ) (s : TS) : ℕ × TS :=
  if x ∈ s.seen then
    match T.findPath x s.root [] with
    | some (ctx, c, l, r) =>
      let dist := T.computePosition ctx
      (int_log2 dist, ⟨T.moveToRoot (T.nd x c l r) ctx, s.seen⟩)
    | none => (0, s)  -- unreachable: _map keys always name nodes in the tree
  else
    let root' := if s.root = T.nil then T.nd x 1 T.nil T.nil else T.insertAtRoot x s.root
    (int_log2 INT_MAX, ⟨root', x :: s.seen⟩)

/-- Run a sequence of references against a fresh `RD_Treap`. -/
def runT (l : List ℕ) : TS := l.foldl (fun s a => (referenceT a s).2) TS.init

/-- The recency order determined by a reference history: most recently
referenced first, each address once (the specification's "most-recently-
referenced to least-recently-referenced" order). -/
def mruList (l : List ℕ) : List ℕ := l.foldl (fun acc x => x :: acc.erase x) []

/-- The address of the root node, if any. -/
def T.rootAddr : T → Option ℕ
  | T.nil => none
  | T.nd a _ _ _ => some a

/-- The preorder predecessors contributed by a context: the addresses that
precede the plugged-in subtree in the preorder of the whole tree. -/
def T.apre : List T.Frame → List ℕ
  | [] => []
  | f :: rest =>
    if f.isRight then T.apre rest ++ f.pa :: T.preorder f.sib
    else T.apre rest ++ [f.pa]

/-- The preorder successors contributed by a context: the addresses that
follow the plugged-in subtree in the preorder of the whole tree. -/
def T.bpost : List T.Frame → List ℕ
  | [] => []
  | f :: rest =>
    if f.isRight then T.bpost rest
    else T.preorder f.sib ++ T.bpost rest

/-- The count invariant stated by the source comment: every node's `_count`
field equals `1 + count(_left) + count(_right)`, children absent counting
as `0` (this is what `Node::ASSERTXCount` checks). -/
def T.wellCounted : T → Prop
  | T.nil => True
  | T.nd _ c l r => c = T.cnt l + 1 + T.cnt r ∧ T.wellCounted l ∧ T.wellCounted r

/-! ## The Tiered Pool Approximator (`RD_LogRR`) -/

/-- `MIN_SIZE_BITS` (source line 268). -/
def MIN_SIZE_BITS : ℕ := 10

/-- `MAX_SIZE_BITS` (source line 269). -/
def MAX_SIZE_BITS : ℕ := 24

/-- `MIN_SIZE = UINT64(1) << MIN_SIZE_BITS`. -/
def MIN_SIZE : ℕ := 2 ^ MIN_SIZE_BITS

/-- `MAX_SIZE = UINT64(1) << MAX_SIZE_BITS`. -/
def MAX_SIZE : ℕ := 2 ^ MAX_SIZE_BITS

/-- `RD_LogRR::getIdx(bin, idx)`: tier `MIN_SIZE_BITS` starts at offset 0,
tier `bin > MIN_SIZE_BITS` starts at offset `2^(bin-1)`. -/
def getIdx (bin idx : ℕ) : ℕ :=
  if bin = MIN_SIZE_BITS then idx else 2 ^ (bin - 1) + idx

/-- State of an `RD_LogRR`: `entries_map` (address → slot index),
`entries_list` (slot index → stored address, `0` = empty slot; the lazy
`resize(MAX_SIZE)` of the C++ is the everywhere-`0` function), and the
`replace_position` cursor array. -/
structure RR : Type where
  entries_map : ℕ → Option ℕ
  entries_list : ℕ → ℕ
  replace_position : ℕ → ℕ

/-- The freshly constructed `RD_LogRR()`: empty map, zeroed cursor array,
(lazily) zero-filled slot array. -/
def RR.init : RR := ⟨fun _ => none, fun _ => 0, fun _ => 0⟩

/-- The promotion walk of `RD_LogRR::reference`: for each tier in `bins`,
read the tier's round-robin slot, advance the cursor
(`(replace_position[bin] + 1) & ((1 << (bin-1)) - 1)`), swap the carried
`item` into the slot (updating `entries_map`), and carry the evicted
occupant forward; stop early when the evicted occupant is the empty
sentinel `0`.  Returns the final carried item and state. -/
def refWalk (item : ℕ) (s : RR) : List ℕ → ℕ × RR
  | [] => (item, s)
  | bin :: rest =>
    let idx := getIdx bin (s.replace_position bin)
    let replace_item := s.entries_list idx
    let s' : RR :=
      { entries_map := fun a => if a = item then some idx else s.entries_map a
        entries_list := fun i => if i = idx then item else s.entries_list i
        replace_position := fun b =>
          if b = bin then (s.replace_position bin + 1) &&& (2 ^ (bin - 1) - 1)
          else s.replace_position b }
    if replace_item = 0 then (replace_item, s')
    else refWalk replace_item s' rest

/-- The tail of `RD_LogRR::reference` after the promotion walk: if the
address was resident (`pos_log2 < MAX_SIZE_BITS`), park the carried item in
the slot the address vacated; otherwise, if a carried item fell off the far
end, forget it. -/
def refFinish (position pos_log2 : ℕ) (w : ℕ × RR) : ℕ × RR :=
  let item := w.1
  let s := w.2
  if pos_log2 < MAX_SIZE_BITS then
    (pos_log2,
      { entries_map := fun a => if a = item then some position else s.entries_map a
        entries_list := fun i => if i = position then item else s.entries_list i
        replace_position := s.replace_position })
  else if item ≠ 0 then
    (pos_log2,
      { entries_map := fun a => if a = item then none else s.entries_map a
        entries_list := s.entries_list
        replace_position := s.replace_position })
  else (pos_log2, s)

/-- `RD_LogRR::reference(address)`: look the address up; a resident address
below `MIN_SIZE` short-circuits with `MIN_SIZE_BITS`; otherwise run the
promotion walk over tiers `[MIN_SIZE_BITS, pos_log2)` and finalize. -/
def referenceRR (address : ℕ) (s : RR) : ℕ × RR :=
  match s.entries_map address with
  | some position =>
    if position < MIN_SIZE then (MIN_SIZE_BITS, s)
    else
      let pos_log2 := int_log2 position
      refFinish position pos_log2
        (refWalk address s (List.range' MIN_SIZE_BITS (pos_log2 - MIN_SIZE_BITS)))
  | none =>
    refFinish MAX_SIZE MAX_SIZE_BITS
      (refWalk address s (List.range' MIN_SIZE_BITS (MAX_SIZE_BITS - MIN_SIZE_BITS)))

/-- Run a sequence of references against a fresh `RD_LogRR`. -/
def runRR (l : List ℕ) : RR := l.foldl (fun s a => (referenceRR a s).2) RR.init

/-! ### Invariant vocabulary for `RD_LogRR` -/

/-- Slot indices the algorithm can ever store something at: the cursor range
of tier `MIN_SIZE_BITS` (`[0, 2^9)`) and the blocks of the higher tiers
(`[2^10, 2^24)`). -/
def validSlot (p : ℕ) : Prop := p < 2 ^ 9 ∨ (2 ^ 10 ≤ p ∧ p < 2 ^ 24)

/-- Every map entry names a nonzero address actually stored at its slot. -/
def mapOK (s : RR) : Prop :=
  ∀ a p, s.entries_map a = some p → a ≠ 0 ∧ s.entries_list p = a ∧ validSlot p

/-- Every resident (nonzero) slot occupant is mapped back to its slot. -/
def listOK (s : RR) : Prop :=
  ∀ i, s.entries_list i ≠ 0 → s.entries_map (s.entries_list i) = some i

/-- Occupancy only on valid slots. -/
def occOK (s : RR) : Prop := ∀ i, s.entries_list i ≠ 0 → validSlot i

/-- Tier `b`'s whole cursor range is occupied. -/
def tierFull (s : RR) (b : ℕ) : Prop :=
  ∀ c, c < 2 ^ (b - 1) → s.entries_list (getIdx b c) ≠ 0

/-- Tier `b` is still filling: its occupied cursor slots are exactly the
prefix `[0, replace_position[b])`. -/
def tierPartial (s : RR) (b : ℕ) : Prop :=
  s.replace_position b < 2 ^ (b - 1) ∧
    ∀ c, c < 2 ^ (b - 1) → (s.entries_list (getIdx b c) ≠ 0 ↔ c < s.replace_position b)

/-- Every tier is either full or filling sequentially. -/
def tiersOK (s : RR) : Prop :=
  ∀ b, MIN_SIZE_BITS ≤ b → b < MAX_SIZE_BITS → (tierFull s b ∨ tierPartial s b)

/-- Tiers fill bottom-up: any occupancy at or beyond `2^b` forces tier `b`
to be completely full. -/
def fillOK (s : RR) : Prop :=
  ∀ b, MIN_SIZE_BITS ≤ b → b < MAX_SIZE_BITS →
    (∃ j, 2 ^ b ≤ j ∧ s.entries_list j ≠ 0) → tierFull s b

/-- Every cursor stays strictly below `2^(b-1)`. -/
def rpOK (s : RR) : Prop :=
  ∀ b, MIN_SIZE_BITS ≤ b → b < MAX_SIZE_BITS → s.replace_position b < 2 ^ (b - 1)

/-- The reachable-state invariant of `RD_LogRR`. -/
def InvRR (s : RR) : Prop :=
  mapOK s ∧ listOK s ∧ occOK s ∧ fillOK s ∧ tiersOK s ∧ rpOK s

/-- Addresses an `RD_LogRR` state can know about: used to relate map keys
and slot occupants to the reference history. -/
def knownOnly (s : RR) (hist : List ℕ) : Prop :=
  (∀ a p, s.entries_map a = some p → a = 0 ∨ a ∈ hist) ∧
    (∀ i, s.entries_list i ≠ 0 → s.entries_list i ∈ hist)

/-- Map values stay below `MAX_SIZE` (used for the return-range claim). -/
def mapBound (s : RR) : Prop := ∀ a p, s.entries_map a = some p → p < MAX_SIZE

/-- Mid-walk ghost state for a hit: the carried item `it` logically still
occupies the hole (the slot the referenced address vacates), which is also
what the finalization `entries_list[position] = item; entries_map[item] =
position` makes literally true.  The walk preserves the map/list bijection
of this ghost state step by step. -/
def vstate (t : RR) (it hole : ℕ) : RR :=
  { entries_map := fun a => if a = it then some hole else t.entries_map a
    entries_list := fun i => if i = hole then it else t.entries_list i
    replace_position := t.replace_position }

/-- Mid-walk ghost state for a miss: the carried item `it` is logically
outside the structure, which is what the fall-off finalization
`entries_map.erase(item)` makes literally true. -/
def wstate (t : RR) (it : ℕ) : RR :=
  { entries_map := fun a => if a = it then none else t.entries_map a
    entries_list := t.entries_list
    replace_position := t.replace_position }

/-- The reachable-state invariant of `RD_Treap`, indexed by the reference
history: the preorder traversal is the recency order of the history, the
`_map` key set matches the tree's addresses, and all stored counts are
consistent. -/
def TInv (hist : List ℕ) (s : TS) : Prop :=
  T.preorder s.root = mruList hist ∧
    (∀ a, a ∈ s.seen ↔ a ∈ T.preorder s.root) ∧ T.wellCounted s.root

/-!
## Theorems

### Recency-tree preorder structure
-/

namespace T

theorem preorder_mk (a : ℕ) (l r : T) :
    preorder (mk a l r) = a :: (preorder l ++ preorder r) := rfl

theorem stealChild_preorder (t : T) :
    preorder (stealChild t).2 ++ preorder (stealChild t).1 = preorder t := by
  induction t with
  | nil => rfl
  | nd a c l r ihl ihr =>
    cases r with
    | nil => cases l <;> simp [stealChild, preorder, mk]
    | nd rb rc rl rr =>
      cases l with
      | nil => simp [stealChild, preorder, mk]
      | nd lb lc ll lr =>
        simp only [stealChild, preorder, mk]
        rw [List.cons_append, ihl]
        simp [preorder]

theorem insertAtRoot_preorder (x : ℕ) (t : T) :
    preorder (insertAtRoot x t) = x :: preorder t := by
  simp only [insertAtRoot, preorder_mk]
  rw [stealChild_preorder]

theorem plug_preorder (ctx : List Frame) :
    ∀ t : T, preorder (plug t ctx) = apre ctx ++ (preorder t ++ bpost ctx) := by
  induction ctx with
  | nil => intro t; simp [plug, apre, bpost]
  | cons f rest ih =>
    intro t
    cases hf : f.isRight <;>
      simp [plug, apre, bpost, hf, ih, preorder]

theorem rebuild_preorder (ctx : List Frame) :
    ∀ t : T, preorder (rebuild t ctx) = apre ctx ++ (preorder t ++ bpost ctx) := by
  induction ctx with
  | nil => intro t; simp [rebuild, apre, bpost]
  | cons f rest ih =>
    intro t
    cases hf : f.isRight <;>
      simp [rebuild, apre, bpost, hf, ih, preorder_mk]

theorem moveToRoot_preorder (ctx : List Frame) :
    ∀ x c l r, preorder (moveToRoot (nd x c l r) ctx) =
      x :: (apre ctx ++ (preorder l ++ (preorder r ++ bpost ctx))) := by
  induction ctx with
  | nil => intro x c l r; simp [moveToRoot, preorder, apre, bpost]
  | cons f rest ih =>
    intro x c l r
    by_cases h1 : l = nil ∨ r = nil
    · rw [moveToRoot, if_pos h1]
      rw [insertAtRoot_preorder, rebuild_preorder]
      by_cases hl : l = nil
      · subst hl; simp [preorder]
      · have hr : r = nil := h1.resolve_left hl
        subst hr; simp [hl, preorder]
    · rw [moveToRoot, if_neg h1]
      cases hf : f.isRight <;>
        simp [hf, mk, ih, preorder, apre, bpost, List.append_assoc]

theorem findPath_plug (x : ℕ) (t : T) :
    ∀ acc ctx c l r, findPath x t acc = some (ctx, c, l, r) →
      plug (nd x c l r) ctx = plug t acc := by
  induction t with
  | nil => intro acc ctx c l r h; simp [findPath] at h
  | nd a cc tl tr ihl ihr =>
    intro acc ctx c l r h
    rw [findPath] at h
    by_cases ha : a = x
    · rw [if_pos ha] at h
      injection h with h
      simp only [Prod.mk.injEq] at h
      obtain ⟨rfl, rfl, rfl, rfl⟩ := h
      subst ha
      rfl
    · rw [if_neg ha] at h
      cases hfl : findPath x tl (⟨false, a, cc, tr⟩ :: acc) with
      | some res =>
        rw [hfl] at h
        obtain ⟨rctx, rc, rl, rr⟩ := res
        injection h with h
        simp only [Prod.mk.injEq] at h
        obtain ⟨rfl, rfl, rfl, rfl⟩ := h
        have := ihl (⟨false, a, cc, tr⟩ :: acc) _ _ _ _ hfl
        simpa [plug] using this
      | none =>
        rw [hfl] at h
        have := ihr (⟨true, a, cc, tl⟩ :: acc) ctx c l r h
        simpa [plug] using this

theorem findPath_isSome (x : ℕ) (t : T) :
    ∀ acc, x ∈ preorder t → (findPath x t acc).isSome := by
  induction t with
  | nil => intro acc h; simp [preorder] at h
  | nd a cc tl tr ihl ihr =>
    intro acc h
    rw [findPath]
    by_cases ha : a = x
    · simp [ha]
    · rw [if_neg ha]
      rw [preorder] at h
      rcases List.mem_cons.1 h with h | h
      · exact absurd h.symm ha
      rcases List.mem_append.1 h with h | h
      · have := ihl (⟨false, a, cc, tr⟩ :: acc) h
        cases hfl : findPath x tl (⟨false, a, cc, tr⟩ :: acc) with
        | some res => simp
        | none => rw [hfl] at this; simp at this
      · cases hfl : findPath x tl (⟨false, a, cc, tr⟩ :: acc) with
        | some res => simp
        | none => exact ihr (⟨true, a, cc, tl⟩ :: acc) h

theorem wellCounted_mk {l r : T} (a : ℕ) (hl : wellCounted l) (hr : wellCounted r) :
    wellCounted (mk a l r) := ⟨rfl, hl, hr⟩

theorem wellCounted_stealChild (t : T) (h : wellCounted t) :
    wellCounted (stealChild t).1 ∧ wellCounted (stealChild t).2 := by
  induction t with
  | nil => exact ⟨trivial, trivial⟩
  | nd a c l r ihl ihr =>
    obtain ⟨-, hl, hr⟩ := h
    cases r with
    | nil =>
      cases l <;> exact ⟨hl, wellCounted_mk a trivial trivial⟩
    | nd rb rc rl rr =>
      cases l with
      | nil => exact ⟨hr, wellCounted_mk a trivial trivial⟩
      | nd lb lc ll lr =>
        obtain ⟨h1, h2⟩ := ihl hl
        exact ⟨hr, wellCounted_mk a h2 h1⟩

theorem wellCounted_insertAtRoot (x : ℕ) (t : T) (h : wellCounted t) :
    wellCounted (insertAtRoot x t) := by
  obtain ⟨h1, h2⟩ := wellCounted_stealChild t h
  exact wellCounted_mk x h2 h1

theorem wellCounted_rebuild (ctx : List Frame) :
    ∀ t : T, wellCounted t → (∀ f ∈ ctx, wellCounted f.sib) →
      wellCounted (rebuild t ctx) := by
  induction ctx with
  | nil => intro t h _; exact h
  | cons f rest ih =>
    intro t h hs
    rw [rebuild]
    have hf := hs f (List.mem_cons_self f rest)
    have hrest : ∀ g ∈ rest, wellCounted g.sib := fun g hg =>
      hs g (List.mem_cons_of_mem f hg)
    cases f.isRight <;>
      simpa using ih _ (wellCounted_mk _ (by simpa) (by simpa)) hrest

theorem wellCounted_moveToRoot (ctx : List Frame) :
    ∀ x c l r, wellCounted (nd x c l r) → (∀ f ∈ ctx, wellCounted f.sib) →
      wellCounted (moveToRoot (nd x c l r) ctx) := by
  induction ctx with
  | nil => intro x c l r h _; exact h
  | cons f rest ih =>
    intro x c l r h hs
    obtain ⟨-, hl, hr⟩ := h
    have hf := hs f (List.mem_cons_self f rest)
    have hrest : ∀ g ∈ rest, wellCounted g.sib := fun g hg =>
      hs g (List.mem_cons_of_mem f hg)
    by_cases h1 : l = nil ∨ r = nil
    · rw [moveToRoot, if_pos h1]
      refine wellCounted_insertAtRoot x _ (wellCounted_rebuild _ _ ?_ hs)
      by_cases hl' : l = nil
      · simp [hl', hr]
      · simp [hl', hl]
    · rw [moveToRoot, if_neg h1]
      cases hf' : f.isRight <;>
        exact ih _ _ _ _ (wellCounted_mk _ (wellCounted_mk _ (by simp_all) (by simp_all))
          (by simp_all)) hrest

theorem plug_wellCounted (ctx : List Frame) :
    ∀ t : T, wellCounted (plug t ctx) → wellCounted t ∧ ∀ f ∈ ctx, wellCounted f.sib := by
  induction ctx with
  | nil => intro t h; exact ⟨h, by simp⟩
  | cons f rest ih =>
    intro t h
    rw [plug] at h
    obtain ⟨h1, h2⟩ := ih _ h
    cases hf : f.isRight <;> rw [hf] at h1
    · exact ⟨h1.2.1, by
        intro g hg
        rcases List.mem_cons.1 hg with rfl | hg
        · exact h1.2.2
        · exact h2 g hg⟩
    · exact ⟨h1.2.2, by
        intro g hg
        rcases List.mem_cons.1 hg with rfl | hg
        · exact h1.2.1
        · exact h2 g hg⟩

theorem cnt_eq_length (t : T) (h : wellCounted t) : cnt t = (preorder t).length := by
  induction t with
  | nil => rfl
  | nd a c l r ihl ihr =>
    obtain ⟨hc, hl, hr⟩ := h
    simp only [cnt, preorder, List.length_cons, List.length_append]
    rw [hc, ihl hl, ihr hr]
    omega

theorem computePosition_rank (ctx : List Frame)
    (h : ∀ f ∈ ctx, wellCounted f.sib) :
    computePosition ctx = (apre ctx).length + 1 := by
  induction ctx with
  | nil => rfl
  | cons f rest ih =>
    have hf := h f (List.mem_cons_self f rest)
    have hrest : ∀ g ∈ rest, wellCounted g.sib := fun g hg =>
      h g (List.mem_cons_of_mem f hg)
    cases hfr : f.isRight <;>
      simp [computePosition, apre, hfr, ih hrest, cnt_eq_length f.sib hf] <;> omega

theorem moveToRootF_eq (ctx : List Frame) :
    ∀ fuel t, ctx.length < fuel → moveToRootF fuel t ctx = some (moveToRoot t ctx) := by
  induction ctx with
  | nil =>
    intro fuel t h
    match fuel, h with
    | fuel + 1, _ => cases t <;> rfl
  | cons f rest ih =>
    intro fuel t h
    match fuel, h with
    | fuel + 1, h =>
      cases t with
      | nil => rfl
      | nd x c l r =>
        by_cases h1 : l = nil ∨ r = nil
        · simp [moveToRootF, moveToRoot, h1]
        · have hlen : rest.length < fuel := by
            simpa using Nat.lt_of_succ_lt_succ h
          cases hf : f.isRight <;>
            simp [moveToRootF, moveToRoot, h1, hf, ih _ _ hlen]

end T

/-! ### `lzcount` / `int_log2` agree with `Nat.log2` on 64-bit values -/

theorem shiftRight_eq_zero_of_lt {v k : ℕ} (h : v < 2 ^ k) : v >>> k = 0 := by
  rw [Nat.shiftRight_eq_div_pow]
  exact Nat.div_eq_of_lt h

theorem lt_of_shiftRight_eq_zero {v k : ℕ} (h : v >>> k = 0) : v < 2 ^ k := by
  rw [Nat.shiftRight_eq_div_pow] at h
  exact (Nat.div_eq_zero_iff (Nat.pos_pow_of_pos k (by norm_num))).1 h

theorem le_of_shiftRight_ne_zero {v k : ℕ} (h : v >>> k ≠ 0) : 2 ^ k ≤ v := by
  by_contra hlt
  push_neg at hlt
  exact h (shiftRight_eq_zero_of_lt hlt)

theorem log2_of_shifts {v M : ℕ} (hp : v >>> M ≠ 0) (hz : v >>> (M + 1) = 0) :
    Nat.log2 v = M := by
  rw [Nat.log2_eq_log_two]
  exact Nat.log_eq_of_pow_le_of_lt_pow (le_of_shiftRight_ne_zero hp)
    (lt_of_shiftRight_eq_zero hz)

theorem shiftRight_eq_one {v M : ℕ} (hp : v >>> M ≠ 0) (hz : v >>> (M + 1) = 0) :
    v >>> M = 1 := by
  have hlt : v >>> M < 2 ^ 1 := lt_of_shiftRight_eq_zero (k := 1) (by
    rw [← Nat.shiftRight_add]; exact hz)
  simp only [pow_one] at hlt
  generalize hw : v >>> M = w at hp hlt
  omega

theorem lz_leaf {v c : ℕ} (hp : v >>> c ≠ 0) (hz : v >>> (c + 2) = 0) :
    (if v >>> (c + 1) ≠ 0 then 64 - c - 2 else 64 - c - v >>> c) = 63 - Nat.log2 v := by
  by_cases h : v >>> (c + 1) = 0
  · rw [if_neg (not_not_intro h), shiftRight_eq_one hp h, log2_of_shifts hp h]
    omega
  · rw [if_pos h]
    have hz' : v >>> (c + 1 + 1) = 0 := by
      have e : c + 1 + 1 = c + 2 := by omega
      rw [e]
      exact hz
    rw [log2_of_shifts h hz']
    omega

theorem lzcount_eq (v : ℕ) (h1 : 0 < v) (h2 : v < 2 ^ 64) :
    lzcount v = 63 - Nat.log2 v := by
  have hv : ¬v = 0 := h1.ne'
  have hp0 : v >>> 0 ≠ 0 := by simpa using hv
  have hz64 : v >>> 64 = 0 := shiftRight_eq_zero_of_lt h2
  rw [lzcount, if_neg hv]
  by_cases h32 : v >>> 32 = 0
  · simp [h32, ← Nat.shiftRight_add]
    by_cases h16 : v >>> 16 = 0
    · simp [h16, ← Nat.shiftRight_add]
      by_cases h8 : v >>> 8 = 0
      · simp [h8, ← Nat.shiftRight_add]
        by_cases h4 : v >>> 4 = 0
        · simp [h4, ← Nat.shiftRight_add]
          by_cases h2 : v >>> 2 = 0
          · simp [h2, ← Nat.shiftRight_add]
            simpa using lz_leaf hp0 h2
          · simp [h2, ← Nat.shiftRight_add]
            simpa using lz_leaf h2 h4
        · simp [h4, ← Nat.shiftRight_add]
          by_cases h6 : v >>> 6 = 0
          · simp [h6, ← Nat.shiftRight_add]
            simpa using lz_leaf h4 h6
          · simp [h6, ← Nat.shiftRight_add]
            simpa using lz_leaf h6 h8
      · simp [h8, ← Nat.shiftRight_add]
        by_cases h12 : v >>> 12 = 0
        · simp [h12, ← Nat.shiftRight_add]
          by_cases h10 : v >>> 10 = 0
          · simp [h10, ← Nat.shiftRight_add]
            simpa using lz_leaf h8 h10
          · simp [h10, ← Nat.shiftRight_add]
            simpa using lz_leaf h10 h12
        · simp [h12, ← Nat.shiftRight_add]
          by_cases h14 : v >>> 14 = 0
          · simp [h14, ← Nat.shiftRight_add]
            simpa using lz_leaf h12 h14
          · simp [h14, ← Nat.shiftRight_add]
            simpa using lz_leaf h14 h16
    · simp [h16, ← Nat.shiftRight_add]
      by_cases h24 : v >>> 24 = 0
      · simp [h24, ← Nat.shiftRight_add]
        by_cases h20 : v >>> 20 = 0
        · simp [h20, ← Nat.shiftRight_add]
          by_cases h18 : v >>> 18 = 0
          · simp [h18, ← Nat.shiftRight_add]
            simpa using lz_leaf h16 h18
          · simp [h18, ← Nat.shiftRight_add]
            simpa using lz_leaf h18 h20
        · simp [h20, ← Nat.shiftRight_add]
          by_cases h22 : v >>> 22 = 0
          · simp [h22, ← Nat.shiftRight_add]
            simpa using lz_leaf h20 h22
          · simp [h22, ← Nat.shiftRight_add]
            simpa using lz_leaf h22 h24
      · simp [h24, ← Nat.shiftRight_add]
        by_cases h28 : v >>> 28 = 0
        · simp [h28, ← Nat.shiftRight_add]
          by_cases h26 : v >>> 26 = 0
          · simp [h26, ← Nat.shiftRight_add]
            simpa using lz_leaf h24 h26
          · simp [h26, ← Nat.shiftRight_add]
            simpa using lz_leaf h26 h28
        · simp [h28, ← Nat.shiftRight_add]
          by_cases h30 : v >>> 30 = 0
          · simp [h30, ← Nat.shiftRight_add]
            simpa using lz_leaf h28 h30
          · simp [h30, ← Nat.shiftRight_add]
            simpa using lz_leaf h30 h32
  · simp [h32, ← Nat.shiftRight_add]
    by_cases h48 : v >>> 48 = 0
    · simp [h48, ← Nat.shiftRight_add]
      by_cases h40 : v >>> 40 = 0
      · simp [h40, ← Nat.shiftRight_add]
        by_cases h36 : v >>> 36 = 0
        · simp [h36, ← Nat.shiftRight_add]
          by_cases h34 : v >>> 34 = 0
          · simp [h34, ← Nat.shiftRight_add]
            simpa using lz_leaf h32 h34
          · simp [h34, ← Nat.shiftRight_add]
            simpa using lz_leaf h34 h36
        · simp [h36, ← Nat.shiftRight_add]
          by_cases h38 : v >>> 38 = 0
          · simp [h38, ← Nat.shiftRight_add]
            simpa using lz_leaf h36 h38
          · simp [h38, ← Nat.shiftRight_add]
            simpa using lz_leaf h38 h40
      · simp [h40, ← Nat.shiftRight_add]
        by_cases h44 : v >>> 44 = 0
        · simp [h44, ← Nat.shiftRight_add]
          by_cases h42 : v >>> 42 = 0
          · simp [h42, ← Nat.shiftRight_add]
            simpa using lz_leaf h40 h42
          · simp [h42, ← Nat.shiftRight_add]
            simpa using lz_leaf h42 h44
        · simp [h44, ← Nat.shiftRight_add]
          by_cases h46 : v >>> 46 = 0
          · simp [h46, ← Nat.shiftRight_add]
            simpa using lz_leaf h44 h46
          · simp [h46, ← Nat.shiftRight_add]
            simpa using lz_leaf h46 h48
    · simp [h48, ← Nat.shiftRight_add]
      by_cases h56 : v >>> 56 = 0
      · simp [h56, ← Nat.shiftRight_add]
        by_cases h52 : v >>> 52 = 0
        · simp [h52, ← Nat.shiftRight_add]
          by_cases h50 : v >>> 50 = 0
          · simp [h50, ← Nat.shiftRight_add]
            simpa using lz_leaf h48 h50
          · simp [h50, ← Nat.shiftRight_add]
            simpa using lz_leaf h50 h52
        · simp [h52, ← Nat.shiftRight_add]
          by_cases h54 : v >>> 54 = 0
          · simp [h54, ← Nat.shiftRight_add]
            simpa using lz_leaf h52 h54
          · simp [h54, ← Nat.shiftRight_add]
            simpa using lz_leaf h54 h56
      · simp [h56, ← Nat.shiftRight_add]
        by_cases h60 : v >>> 60 = 0
        · simp [h60, ← Nat.shiftRight_add]
          by_cases h58 : v >>> 58 = 0
          · simp [h58, ← Nat.shiftRight_add]
            simpa using lz_leaf h56 h58
          · simp [h58, ← Nat.shiftRight_add]
            simpa using lz_leaf h58 h60
        · simp [h60, ← Nat.shiftRight_add]
          by_cases h62 : v >>> 62 = 0
          · simp [h62, ← Nat.shiftRight_add]
            simpa using lz_leaf h60 h62
          · simp [h62, ← Nat.shiftRight_add]
            simpa using lz_leaf h62 hz64

theorem int_log2_eq (v : ℕ) (h1 : 0 < v) (h2 : v < 2 ^ 64) :
    int_log2 v = Nat.log2 v := by
  have hlog : Nat.log2 v ≤ 63 := by
    rw [Nat.log2_eq_log_two]
    by_contra hgt
    push_neg at hgt
    have hle : 2 ^ 64 ≤ v :=
      (Nat.pow_le_iff_le_log (by norm_num) h1.ne').mpr (by omega)
    omega
  rw [int_log2, lzcount_eq v h1 h2]
  omega

/-! ### The recency-order invariant pays off: claims C1–C4, C9 -/

/-! ### The recency order -/

theorem mruList_append (l : List ℕ) (x : ℕ) :
    mruList (l ++ [x]) = x :: (mruList l).erase x := by
  simp [mruList]

theorem mem_mruList (l : List ℕ) : ∀ a, a ∈ mruList l ↔ a ∈ l := by
  induction l using List.reverseRecOn with
  | nil => simp [mruList]
  | append_singleton l x ih =>
    intro a
    by_cases hax : a = x
    · subst hax; simp [mruList_append]
    · simp only [mruList_append, List.mem_cons, List.mem_append, List.mem_singleton, hax,
        false_or, or_false]
      rw [List.mem_erase_of_ne hax, ih]
      simp

theorem mruList_nodup (l : List ℕ) : (mruList l).Nodup := by
  induction l using List.reverseRecOn with
  | nil => simp [mruList]
  | append_singleton l x ih =>
    rw [mruList_append]
    refine List.Nodup.cons ?_ (ih.erase x)
    intro hx
    exact absurd (ih.mem_erase_iff.1 hx).1 (by simp)

/-! ### The `RD_Treap` reachable-state invariant -/

theorem referenceT_inv (x : ℕ) (s : TS) (hist : List ℕ) (h : TInv hist s) :
    TInv (hist ++ [x]) (referenceT x s).2 := by
  obtain ⟨hpre, hseen, hwc⟩ := h
  by_cases hx : x ∈ s.seen
  · -- known address: find its node, move it to the root
    have hxt : x ∈ T.preorder s.root := (hseen x).1 hx
    have hsome := T.findPath_isSome x s.root [] hxt
    rw [referenceT, if_pos hx]
    cases hfp : T.findPath x s.root [] with
    | none => rw [hfp] at hsome; simp at hsome
    | some res =>
      obtain ⟨ctx, c, l, r⟩ := res
      have hplug := T.findPath_plug x s.root [] ctx c l r hfp
      simp only [T.plug] at hplug
      -- decompose the old preorder around the node
      have hdecomp : T.preorder s.root =
          T.apre ctx ++ (x :: (T.preorder l ++ (T.preorder r ++ T.bpost ctx))) := by
        conv_lhs => rw [← hplug]
        rw [T.plug_preorder]
        simp [T.preorder]
      have hwcplug := hwc
      rw [← hplug] at hwcplug
      obtain ⟨hwcn, hwcs⟩ := T.plug_wellCounted ctx _ hwcplug
      have hnodup : (T.preorder s.root).Nodup := hpre ▸ mruList_nodup hist
      have hxapre : x ∉ T.apre ctx := by
        rw [hdecomp] at hnodup
        intro hmem
        exact (List.disjoint_of_nodup_append hnodup) hmem (by simp)
      constructor
      · -- preorder = new recency order
        show T.preorder (T.moveToRoot (T.nd x c l r) ctx) = mruList (hist ++ [x])
        rw [T.moveToRoot_preorder, mruList_append, ← hpre, hdecomp,
          List.erase_append_right _ hxapre, List.erase_cons_head]
      constructor
      · -- seen unchanged, same address set
        intro a
        show a ∈ s.seen ↔ a ∈ T.preorder (T.moveToRoot (T.nd x c l r) ctx)
        rw [T.moveToRoot_preorder, hseen a, hdecomp]
        simp only [List.mem_append, List.mem_cons]
        tauto
      · -- counts stay consistent
        exact T.wellCounted_moveToRoot ctx x c l r hwcn hwcs
  · -- first touch: insert at root
    have hxt : x ∉ T.preorder s.root := fun hc => hx ((hseen x).2 hc)
    have hxm : x ∉ mruList hist := by rw [← hpre]; exact hxt
    rw [referenceT, if_neg hx]
    by_cases hnil : s.root = T.nil
    · have hprenil : T.preorder s.root = [] := by rw [hnil]; rfl
      refine ⟨?_, ?_, ?_⟩
      · show T.preorder (if s.root = T.nil then T.nd x 1 T.nil T.nil
          else T.insertAtRoot x s.root) = mruList (hist ++ [x])
        rw [if_pos hnil, mruList_append, ← hpre, hprenil]
        rfl
      · intro a
        show a ∈ x :: s.seen ↔ a ∈ T.preorder (if s.root = T.nil then T.nd x 1 T.nil T.nil
          else T.insertAtRoot x s.root)
        rw [if_pos hnil]
        have hempty : a ∉ s.seen := fun hc => by
          have := (hseen a).1 hc
          rw [hprenil] at this
          simp at this
        simp [T.preorder, hempty]
      · show T.wellCounted (if s.root = T.nil then T.nd x 1 T.nil T.nil
          else T.insertAtRoot x s.root)
        rw [if_pos hnil]
        exact ⟨rfl, trivial, trivial⟩
    · refine ⟨?_, ?_, ?_⟩
      · show T.preorder (if s.root = T.nil then T.nd x 1 T.nil T.nil
          else T.insertAtRoot x s.root) = mruList (hist ++ [x])
        rw [if_neg hnil, T.insertAtRoot_preorder, mruList_append, ← hpre,
          List.erase_of_not_mem hxt]
      · intro a
        show a ∈ x :: s.seen ↔ a ∈ T.preorder (if s.root = T.nil then T.nd x 1 T.nil T.nil
          else T.insertAtRoot x s.root)
        rw [if_neg hnil, T.insertAtRoot_preorder]
        simp [hseen a]
      · show T.wellCounted (if s.root = T.nil then T.nd x 1 T.nil T.nil
          else T.insertAtRoot x s.root)
        rw [if_neg hnil]
        exact T.wellCounted_insertAtRoot x s.root hwc

theorem runT_inv (l : List ℕ) : TInv l (runT l) := by
  induction l using List.reverseRecOn with
  | nil => exact ⟨rfl, by simp [runT, TS.init, T.preorder], trivial⟩
  | append_singleton l x ih =>
    have : runT (l ++ [x]) = (referenceT x (runT l)).2 := by
      simp [runT, List.foldl_append]
    rw [this]
    exact referenceT_inv x (runT l) l ih

theorem runT_append_singleton (l : List ℕ) (x : ℕ) :
    runT (l ++ [x]) = (referenceT x (runT l)).2 := by
  simp [runT, List.foldl_append]

theorem rootAddr_of_preorder {t : T} {a : ℕ} {rest : List ℕ}
    (h : T.preorder t = a :: rest) : T.rootAddr t = some a := by
  cases t with
  | nil => simp [T.preorder] at h
  | nd b c l r =>
    rw [T.preorder] at h
    injection h with h1 _
    rw [T.rootAddr, h1]

theorem mruList_of_nodup (l : List ℕ) (h : l.Nodup) : mruList l = l.reverse := by
  induction l using List.reverseRecOn with
  | nil => rfl
  | append_singleton l x ih =>
    obtain ⟨hl, -, hdisj⟩ := List.nodup_append.1 h
    have hx : x ∉ l := fun hc => hdisj hc (by simp)
    rw [mruList_append, ih hl, List.erase_of_not_mem (by simpa using hx)]
    simp

/-- Claim C1: after every reference sequence, the preorder traversal of the
Recency Tree lists exactly the addresses referenced so far, ordered from
most- to least-recently referenced, and the just-referenced node is the
root. -/
theorem C1_preorder_is_recency (l : List ℕ) :
    T.preorder (runT l).root = mruList l ∧
      (∀ a, a ∈ T.preorder (runT l).root ↔ a ∈ l) ∧
      (∀ a, T.rootAddr ((referenceT a (runT l)).2).root = some a) := by
  obtain ⟨hpre, -, -⟩ := runT_inv l
  refine ⟨hpre, ?_, ?_⟩
  · intro a
    rw [hpre, mem_mruList]
  · intro a
    obtain ⟨hpre', -, -⟩ := runT_inv (l ++ [a])
    rw [runT_append_singleton] at hpre'
    rw [mruList_append] at hpre'
    exact rootAddr_of_preorder hpre'

/-- Claim C3: after every reference sequence, every node of the Recency
Tree stores `_count = count(_left) + 1 + count(_right)` (the invariant
`ASSERTXCount` checks; in this functional embedding the parent/child links
are consistent by construction). -/
theorem C3_counts (l : List ℕ) : T.wellCounted (runT l).root :=
  (runT_inv l).2.2

/-- Claim C2: in every reachable Recency Tree, `computePosition` of a node
returns 1 plus the number of addresses preceding it in the preorder
traversal (`apre ctx` is exactly that prefix); in particular the root has
position 1, so twice referencing the same address consecutively returns
bucket `0` the second time. -/
theorem C2_computePosition (l : List ℕ) :
    (∀ x ctx c tl tr, T.findPath x (runT l).root [] = some (ctx, c, tl, tr) →
      T.computePosition ctx = (T.apre ctx).length + 1 ∧
        T.preorder (runT l).root =
          T.apre ctx ++ (x :: (T.preorder tl ++ (T.preorder tr ++ T.bpost ctx)))) ∧
      (∀ a, (referenceT a (referenceT a (runT l)).2).1 = 0) := by
  obtain ⟨hpre, hseen, hwc⟩ := runT_inv l
  constructor
  · intro x ctx c tl tr hfp
    have hplug := T.findPath_plug x _ [] ctx c tl tr hfp
    simp only [T.plug] at hplug
    have hwcplug := hwc
    rw [← hplug] at hwcplug
    obtain ⟨hwcn, hwcs⟩ := T.plug_wellCounted ctx _ hwcplug
    refine ⟨T.computePosition_rank ctx hwcs, ?_⟩
    conv_lhs => rw [← hplug]
    rw [T.plug_preorder]
    simp [T.preorder]
  · intro a
    obtain ⟨hpre', hseen', -⟩ := runT_inv (l ++ [a])
    rw [runT_append_singleton] at hpre' hseen'
    rw [mruList_append] at hpre'
    set s' := (referenceT a (runT l)).2 with hs'
    have hmem : a ∈ s'.seen := (hseen' a).2 (by rw [hpre']; simp)
    cases hroot : s'.root with
    | nil => rw [hroot] at hpre'; simp [T.preorder] at hpre'
    | nd b c tl tr =>
      have hb : b = a := by
        rw [hroot, T.preorder] at hpre'
        exact (List.cons.injEq _ _ _ _ ▸ hpre').1
      subst hb
      rw [referenceT, if_pos hmem, hroot]
      simp [T.findPath, T.computePosition]
      decide

/-- Claim C9: the `while (_parent)` loop of `moveToRoot` terminates within
`depth + 1` iterations — each iteration either installs the node as root
outright (at-most-one-child case) or strictly decreases its depth — so the
fueled loop agrees with the total function `moveToRoot` whenever the fuel
exceeds the node's depth, making `reference` a total function of the call
history. -/
theorem C9_moveToRoot_terminates (t : T) (ctx : List T.Frame) (fuel : ℕ)
    (h : ctx.length < fuel) :
    T.moveToRootF fuel t ctx = some (T.moveToRoot t ctx) :=
  T.moveToRootF_eq ctx fuel t h

theorem C9_witness :
    ([] : List T.Frame).length < 1 ∧
      T.moveToRootF 1 (T.nd 5 1 T.nil T.nil) [] =
        some (T.moveToRoot (T.nd 5 1 T.nil T.nil) []) :=
  ⟨by decide, C9_moveToRoot_terminates (T.nd 5 1 T.nil T.nil) [] 1 (by decide)⟩

theorem C2_witness :
    (T.computePosition [⟨false, 2, 2, T.nil⟩] =
        (T.apre [⟨false, 2, 2, T.nil⟩]).length + 1 ∧
      T.preorder (runT [1, 2]).root =
        T.apre [⟨false, 2, 2, T.nil⟩] ++
          (1 :: (T.preorder T.nil ++ (T.preorder T.nil ++ T.bpost [⟨false, 2, 2, T.nil⟩])))) ∧
      (referenceT 7 (referenceT 7 (runT [1, 2])).2).1 = 0 :=
  ⟨(C2_computePosition [1, 2]).1 1 [⟨false, 2, 2, T.nil⟩] 1 T.nil T.nil (by decide),
    (C2_computePosition [1, 2]).2 7⟩

/-- Claim C4, counterexample: after the three distinct first-time addresses
`1, 2, 3`, re-referencing the first (`1`, at recency rank `k = 3`) returns
bucket `int_log2 3 = 1`, not `floor(log2 (k+1)) = log2 4 = 2` as claimed. -/
theorem C4_counterexample :
    (referenceT 1 (runT [1, 2, 3])).1 = 1 ∧ Nat.log2 (3 + 1) = 2 ∧ (1 : ℕ) ≠ 2 := by
  refine ⟨by decide, ?_, by decide⟩
  rw [Nat.log2_eq_log_two]
  exact Nat.log_eq_of_pow_le_of_lt_pow (by norm_num) (by norm_num)

/-- Claim C4 as amended: for `k` distinct first-time addresses followed by a
re-reference to the first of them, the Recency Tree returns
`floor(log2 k)` (the first address then has recency rank exactly `k`). -/
theorem C4_amended (l : List ℕ) (hnd : l.Nodup) (hne : l ≠ [])
    (hlen : l.length < 2 ^ 64) :
    (referenceT l.headI (runT l)).1 = Nat.log2 l.length := by
  obtain ⟨x, t, rfl⟩ : ∃ x t, l = x :: t := by
    cases l with
    | nil => exact absurd rfl hne
    | cons x t => exact ⟨x, t, rfl⟩
  simp only [List.headI]
  obtain ⟨hpre, hseen, hwc⟩ := runT_inv (x :: t)
  have hrev : mruList (x :: t) = t.reverse ++ [x] := by
    rw [mruList_of_nodup _ hnd]; simp
  have hmem : x ∈ (runT (x :: t)).seen :=
    (hseen x).2 (by rw [hpre, mem_mruList]; simp)
  have hsome := T.findPath_isSome x (runT (x :: t)).root [] ((hseen x).1 hmem)
  cases hfp : T.findPath x (runT (x :: t)).root [] with
  | none => rw [hfp] at hsome; simp at hsome
  | some res =>
    obtain ⟨ctx, c, tl, tr⟩ := res
    have hplug := T.findPath_plug x _ [] ctx c tl tr hfp
    simp only [T.plug] at hplug
    have hwcplug := hwc
    rw [← hplug] at hwcplug
    obtain ⟨hwcn, hwcs⟩ := T.plug_wellCounted ctx _ hwcplug
    have hdecomp : T.preorder (runT (x :: t)).root =
        T.apre ctx ++ (x :: (T.preorder tl ++ (T.preorder tr ++ T.bpost ctx))) := by
      conv_lhs => rw [← hplug]
      rw [T.plug_preorder]
      simp [T.preorder]
    have heq : t.reverse ++ [x] =
        T.apre ctx ++ (x :: (T.preorder tl ++ (T.preorder tr ++ T.bpost ctx))) := by
      rw [← hdecomp, hpre, hrev]
    have hnodupL : (t.reverse ++ [x]).Nodup := by
      rw [← hrev, ← hpre]
      exact hpre ▸ mruList_nodup (x :: t)
    have hnodupR : (T.apre ctx ++
        (x :: (T.preorder tl ++ (T.preorder tr ++ T.bpost ctx)))).Nodup := heq ▸ hnodupL
    have hxR : x ∉ T.preorder tl ++ (T.preorder tr ++ T.bpost ctx) :=
      (List.nodup_cons.1 (hnodupR.of_append_right)).1
    have hR : T.preorder tl ++ (T.preorder tr ++ T.bpost ctx) = [] := by
      by_contra hRne
      have h1 : (t.reverse ++ [x]).getLast? = some x := List.getLast?_concat _
      have h2 : (T.apre ctx ++
          (x :: (T.preorder tl ++ (T.preorder tr ++ T.bpost ctx)))).getLast? =
          (T.preorder tl ++ (T.preorder tr ++ T.bpost ctx)).getLast? := by
        rw [List.getLast?_append_of_ne_nil _ (by simp)]
        have hcons : x :: (T.preorder tl ++ (T.preorder tr ++ T.bpost ctx)) =
            [x] ++ (T.preorder tl ++ (T.preorder tr ++ T.bpost ctx)) := rfl
        rw [hcons]
        exact List.getLast?_append_of_ne_nil _ hRne
      rw [heq, h2] at h1
      have hlast := List.getLast_mem hRne
      rw [List.getLast?_eq_getLast _ hRne] at h1
      injection h1 with h1
      rw [h1] at hlast
      exact hxR hlast
    have hapre : T.apre ctx = t.reverse := by
      have := heq
      rw [hR] at this
      exact (List.append_left_injective [x] this.symm)
    have hrank : T.computePosition ctx = t.length + 1 := by
      rw [T.computePosition_rank ctx hwcs, hapre]
      simp
    rw [referenceT, if_pos hmem, hfp]
    simp only [hrank]
    rw [int_log2_eq _ (by omega) (by simpa using hlen)]
    simp

theorem C4_amended_witness :
    ([1, 2, 3] : List ℕ).Nodup ∧ ([1, 2, 3] : List ℕ) ≠ [] ∧
      ([1, 2, 3] : List ℕ).length < 2 ^ 64 ∧
      (referenceT ([1, 2, 3] : List ℕ).headI (runT [1, 2, 3])).1 =
        Nat.log2 ([1, 2, 3] : List ℕ).length :=
  ⟨by decide, by decide, by norm_num,
    C4_amended [1, 2, 3] (by decide) (by decide) (by norm_num)⟩

/-! ### `RD_LogRR`: basic structural lemmas -/

theorem land_two_pow_sub_one (x k : ℕ) : x &&& (2 ^ k - 1) = x % 2 ^ k := by
  apply Nat.eq_of_testBit_eq
  intro i
  simp [Nat.testBit_and, Nat.testBit_mod_two_pow, Nat.testBit_two_pow_sub_one, Bool.and_comm]

theorem refFinish_fst (position pos_log2 : ℕ) (w : ℕ × RR) :
    (refFinish position pos_log2 w).1 = pos_log2 := by
  rw [refFinish]
  split_ifs <;> rfl

theorem refFinish_rp (position pos_log2 : ℕ) (w : ℕ × RR) :
    (refFinish position pos_log2 w).2.replace_position = w.2.replace_position := by
  rw [refFinish]
  split_ifs <;> rfl

theorem refWalk_rp_of_not_mem (bins : List ℕ) :
    ∀ item s b, b ∉ bins →
      (refWalk item s bins).2.replace_position b = s.replace_position b := by
  induction bins with
  | nil => intro item s b _; rfl
  | cons bin rest ih =>
    intro item s b hb
    have hbne : b ≠ bin := fun hc => hb (hc ▸ List.mem_cons_self bin rest)
    have hbr : b ∉ rest := fun hc => hb (List.mem_cons_of_mem bin hc)
    rw [refWalk]
    by_cases hz : s.entries_list (getIdx bin (s.replace_position bin)) = 0
    · simp [hz, hbne]
    · simp only [hz, if_false, ite_false, if_neg hz]
      rw [ih]
      · simp [hbne]
      · exact hbr

theorem refWalk_rp (bins : List ℕ) (hnd : bins.Nodup) :
    ∀ item s b,
      (refWalk item s bins).2.replace_position b = s.replace_position b ∨
        (refWalk item s bins).2.replace_position b =
          (s.replace_position b + 1) % 2 ^ (b - 1) := by
  induction bins with
  | nil => intro item s b; exact Or.inl rfl
  | cons bin rest ih =>
    intro item s b
    obtain ⟨hbin, hrest⟩ := List.nodup_cons.1 hnd
    rw [refWalk]
    by_cases hz : s.entries_list (getIdx bin (s.replace_position bin)) = 0
    · by_cases hbb : b = bin
      · subst hbb
        right
        simp [hz, land_two_pow_sub_one]
      · left
        simp [hz, hbb]
    · simp only [hz, if_false, ite_false, if_neg hz]
      by_cases hbb : b = bin
      · subst hbb
        right
        rw [refWalk_rp_of_not_mem rest _ _ _ hbin]
        simp [land_two_pow_sub_one]
      · have := ih hrest (s.entries_list (getIdx bin (s.replace_position bin)))
          { entries_map := fun a =>
              if a = item then some (getIdx bin (s.replace_position bin)) else s.entries_map a
            entries_list := fun i =>
              if i = getIdx bin (s.replace_position bin) then item else s.entries_list i
            replace_position := fun b' =>
              if b' = bin then (s.replace_position bin + 1) &&& (2 ^ (bin - 1) - 1)
              else s.replace_position b' } b
        simpa [hbb] using this

theorem getIdx_lt {b c : ℕ} (hb1 : MIN_SIZE_BITS ≤ b) (hb2 : b < MAX_SIZE_BITS)
    (hc : c < 2 ^ (b - 1)) : getIdx b c < MAX_SIZE := by
  have hb1' : 10 ≤ b := hb1
  have hb2' : b < 24 := hb2
  have hpow : (2 : ℕ) ^ (b - 1) + 2 ^ (b - 1) ≤ 2 ^ 24 := by
    have e : b - 1 + 1 = b := by omega
    have h2b : (2 : ℕ) ^ (b - 1) + 2 ^ (b - 1) = 2 ^ b := by
      conv_rhs => rw [← e]
      rw [pow_succ]
      omega
    rw [h2b]
    exact Nat.pow_le_pow_right (by norm_num) (by omega)
  have hmax : MAX_SIZE = 2 ^ 24 := rfl
  rw [getIdx, hmax]
  split_ifs with h
  · have h10 : b = 10 := h
    subst h10
    omega
  · omega

theorem refWalk_bound (bins : List ℕ) :
    ∀ item s, (∀ b ∈ bins, MIN_SIZE_BITS ≤ b ∧ b < MAX_SIZE_BITS) →
      mapBound s → rpOK s →
      mapBound (refWalk item s bins).2 ∧ rpOK (refWalk item s bins).2 := by
  induction bins with
  | nil => intro item s _ hm hr; exact ⟨hm, hr⟩
  | cons bin rest ih =>
    intro item s hbins hm hr
    obtain ⟨hbin1, hbin2⟩ := hbins bin (List.mem_cons_self bin rest)
    have hidx : getIdx bin (s.replace_position bin) < MAX_SIZE :=
      getIdx_lt hbin1 hbin2 (hr bin hbin1 hbin2)
    have hm' : mapBound
        { entries_map := fun a =>
            if a = item then some (getIdx bin (s.replace_position bin)) else s.entries_map a
          entries_list := fun i =>
            if i = getIdx bin (s.replace_position bin) then item else s.entries_list i
          replace_position := fun b' =>
            if b' = bin then (s.replace_position bin + 1) &&& (2 ^ (bin - 1) - 1)
            else s.replace_position b' } := by
      intro a p hp
      by_cases ha : a = item
      · rw [mapBound] at hm
        simp only [ha, if_pos rfl] at hp
        injection hp with hp
        omega
      · simp only [ha, if_false, ite_false, if_neg ha] at hp
        exact hm a p hp
    have hr' : rpOK
        { entries_map := fun a =>
            if a = item then some (getIdx bin (s.replace_position bin)) else s.entries_map a
          entries_list := fun i =>
            if i = getIdx bin (s.replace_position bin) then item else s.entries_list i
          replace_position := fun b' =>
            if b' = bin then (s.replace_position bin + 1) &&& (2 ^ (bin - 1) - 1)
            else s.replace_position b' } := by
      intro b hb1 hb2
      by_cases hbb : b = bin
      · subst hbb
        simp only [if_pos rfl, land_two_pow_sub_one]
        exact Nat.mod_lt _ (Nat.pos_pow_of_pos _ (by norm_num))
      · simp only [if_neg hbb]
        exact hr b hb1 hb2
    rw [refWalk]
    by_cases hz : s.entries_list (getIdx bin (s.replace_position bin)) = 0
    · simp only [hz, if_pos rfl]
      exact ⟨hm', hr'⟩
    · simp only [hz, if_neg hz, ite_false]
      exact ih _ _ (fun b hb => hbins b (List.mem_cons_of_mem bin hb)) hm' hr'

theorem refFinish_bound {position pos_log2 : ℕ} {w : ℕ × RR}
    (hpos : position < MAX_SIZE ∨ ¬pos_log2 < MAX_SIZE_BITS)
    (hm : mapBound w.2) (hr : rpOK w.2) :
    mapBound (refFinish position pos_log2 w).2 ∧ rpOK (refFinish position pos_log2 w).2 := by
  rw [refFinish]
  split_ifs with h1 h2
  · refine ⟨?_, hr⟩
    intro a p hp
    by_cases ha : a = w.1
    · simp only [ha, if_pos rfl] at hp
      injection hp with hp
      rcases hpos with hpos | hpos
      · omega
      · exact absurd h1 hpos
    · simp only [if_neg ha] at hp
      exact hm a p hp
  · refine ⟨?_, hr⟩
    intro a p hp
    by_cases ha : a = w.1
    · simp only [ha, if_pos rfl] at hp
      cases hp
    · simp only [if_neg ha] at hp
      exact hm a p hp
  · exact ⟨hm, hr⟩

theorem pos_log2_le {p : ℕ} (h1 : MIN_SIZE ≤ p) (h2 : p < MAX_SIZE) :
    MIN_SIZE_BITS ≤ int_log2 p ∧ int_log2 p < MAX_SIZE_BITS := by
  rw [MIN_SIZE, MIN_SIZE_BITS] at h1
  rw [MAX_SIZE, MAX_SIZE_BITS] at h2
  have hp0 : 0 < p := lt_of_lt_of_le (by norm_num) h1
  have hp64 : p < 2 ^ 64 := lt_trans h2 (by norm_num)
  rw [int_log2_eq p hp0 hp64, Nat.log2_eq_log_two]
  constructor
  · rw [MIN_SIZE_BITS]
    exact (Nat.pow_le_iff_le_log (by norm_num) hp0.ne').1 h1
  · rw [MAX_SIZE_BITS]
    exact (Nat.lt_pow_iff_log_lt (by norm_num) hp0.ne').1 h2

theorem referenceRR_bound {a : ℕ} {s : RR} (hm : mapBound s) (hr : rpOK s) :
    mapBound (referenceRR a s).2 ∧ rpOK (referenceRR a s).2 := by
  rw [referenceRR]
  cases hmap : s.entries_map a with
  | some position =>
    have hposlt : position < MAX_SIZE := hm a position hmap
    by_cases hps : position < MIN_SIZE
    · simp only [if_pos hps]
      exact ⟨hm, hr⟩
    · simp only [if_neg hps]
      push_neg at hps
      obtain ⟨hl1, hl2⟩ := pos_log2_le hps hposlt
      refine refFinish_bound (Or.inl hposlt) ?_ ?_ <;>
        [skip; skip] <;>
        first
        | exact (refWalk_bound _ _ _ (fun b hb => by
            rw [List.mem_range'] at hb
            obtain ⟨i, hi, rfl⟩ := hb
            constructor <;> omega) hm hr).1
        | exact (refWalk_bound _ _ _ (fun b hb => by
            rw [List.mem_range'] at hb
            obtain ⟨i, hi, rfl⟩ := hb
            constructor <;> omega) hm hr).2
  | none =>
    refine refFinish_bound (Or.inr (by rw [MAX_SIZE_BITS]; omega)) ?_ ?_ <;>
      first
      | exact (refWalk_bound _ _ _ (fun b hb => by
          rw [List.mem_range'] at hb
          obtain ⟨i, hi, rfl⟩ := hb
          rw [MIN_SIZE_BITS, MAX_SIZE_BITS] at *
          constructor <;> omega) hm hr).1
      | exact (refWalk_bound _ _ _ (fun b hb => by
          rw [List.mem_range'] at hb
          obtain ⟨i, hi, rfl⟩ := hb
          rw [MIN_SIZE_BITS, MAX_SIZE_BITS] at *
          constructor <;> omega) hm hr).2

theorem runRR_bound (l : List ℕ) : mapBound (runRR l) ∧ rpOK (runRR l) := by
  induction l using List.reverseRecOn with
  | nil =>
    constructor
    · intro a p hp
      cases hp
    · intro b _ _
      exact Nat.pos_pow_of_pos _ (by norm_num)
  | append_singleton l x ih =>
    have : runRR (l ++ [x]) = (referenceRR x (runRR l)).2 := by
      simp [runRR, List.foldl_append]
    rw [this]
    exact referenceRR_bound ih.1 ih.2

theorem runRR_append_singleton (l : List ℕ) (x : ℕ) :
    runRR (l ++ [x]) = (referenceRR x (runRR l)).2 := by
  simp [runRR, List.foldl_append]

/-- Claim C10: a reference to an address resident at a slot strictly below
`MIN_SIZE` returns `MIN_SIZE_BITS` and leaves the whole tracker state —
`entries_list`, `entries_map` and every `replace_position` cursor —
exactly as it was: the hot address is neither refreshed nor promoted. -/
theorem C10_hot_hit_frame (s : RR) (a p : ℕ)
    (hmap : s.entries_map a = some p) (hp : p < MIN_SIZE) :
    referenceRR a s = (MIN_SIZE_BITS, s) := by
  simp only [referenceRR, hmap, if_pos hp]

theorem C10_witness :
    (runRR [5]).entries_map 5 = some 0 ∧ (0 : ℕ) < MIN_SIZE ∧
      referenceRR 5 (runRR [5]) = (MIN_SIZE_BITS, runRR [5]) := by
  refine ⟨by decide, by decide, ?_⟩
  exact C10_hot_hit_frame (runRR [5]) 5 0 (by decide) (by decide)

/-- Claim C7: every `RD_LogRR::reference` call returns a bucket in
`[MIN_SIZE_BITS, MAX_SIZE_BITS] = [10, 24]`, and a hit at a slot strictly
below `MIN_SIZE` returns exactly `MIN_SIZE_BITS`. -/
theorem C7_return_range (l : List ℕ) (a : ℕ) :
    MIN_SIZE_BITS ≤ (referenceRR a (runRR l)).1 ∧
      (referenceRR a (runRR l)).1 ≤ MAX_SIZE_BITS ∧
      (∀ p, (runRR l).entries_map a = some p → p < MIN_SIZE →
        (referenceRR a (runRR l)).1 = MIN_SIZE_BITS) := by
  obtain ⟨hm, hr⟩ := runRR_bound l
  cases hmap : (runRR l).entries_map a with
  | some position =>
    by_cases hps : position < MIN_SIZE
    · rw [C10_hot_hit_frame _ a position hmap hps]
      refine ⟨le_refl _, ?_, fun _ _ _ => rfl⟩
      have h1 : MIN_SIZE_BITS = 10 := rfl
      have h2 : MAX_SIZE_BITS = 24 := rfl
      omega
    · have hpos := hm a position hmap
      have hps' : MIN_SIZE ≤ position := not_lt.1 hps
      obtain ⟨hl1, hl2⟩ := pos_log2_le hps' hpos
      have hret : (referenceRR a (runRR l)).1 = int_log2 position := by
        simp only [referenceRR, hmap, if_neg hps]
        exact refFinish_fst _ _ _
      rw [hret]
      refine ⟨hl1, le_of_lt hl2, ?_⟩
      intro p hp hplt
      injection hp with hp
      subst hp
      exact absurd hplt hps
  | none =>
    have hret : (referenceRR a (runRR l)).1 = MAX_SIZE_BITS := by
      simp only [referenceRR, hmap]
      exact refFinish_fst _ _ _
    rw [hret]
    refine ⟨?_, le_refl _, ?_⟩
    · have h1 : MIN_SIZE_BITS = 10 := rfl
      have h2 : MAX_SIZE_BITS = 24 := rfl
      omega
    · intro p hp
      exact absurd hp (by simp)

theorem C7_witness :
    MIN_SIZE_BITS ≤ (referenceRR 9 (runRR [9])).1 ∧
      (referenceRR 9 (runRR [9])).1 ≤ MAX_SIZE_BITS ∧
      (∀ p, (runRR [9]).entries_map 9 = some p → p < MIN_SIZE →
        (referenceRR 9 (runRR [9])).1 = MIN_SIZE_BITS) :=
  C7_return_range [9] 9

/-! ### The history of an `RD_LogRR` bounds its contents (claim C8) -/

theorem refWalk_known (bins : List ℕ) (P : ℕ → Prop) :
    ∀ item s,
      (∀ a p, s.entries_map a = some p → a = 0 ∨ P a) →
      (∀ i, s.entries_list i ≠ 0 → P (s.entries_list i)) → P item →
      (∀ a p, (refWalk item s bins).2.entries_map a = some p → a = 0 ∨ P a) ∧
        (∀ i, (refWalk item s bins).2.entries_list i ≠ 0 →
          P ((refWalk item s bins).2.entries_list i)) ∧
        ((refWalk item s bins).1 = 0 ∨ P (refWalk item s bins).1) := by
  induction bins with
  | nil => intro item s h1 h2 h3; exact ⟨h1, h2, Or.inr h3⟩
  | cons bin rest ih =>
    intro item s h1 h2 h3
    have h1' : ∀ a p,
        (if a = item then some (getIdx bin (s.replace_position bin)) else s.entries_map a) =
          some p → a = 0 ∨ P a := by
      intro a p hp
      by_cases ha : a = item
      · exact Or.inr (ha ▸ h3)
      · rw [if_neg ha] at hp
        exact h1 a p hp
    have h2' : ∀ i,
        (if i = getIdx bin (s.replace_position bin) then item else s.entries_list i) ≠ 0 →
          P (if i = getIdx bin (s.replace_position bin) then item else s.entries_list i) := by
      intro i hi
      by_cases hii : i = getIdx bin (s.replace_position bin)
      · rw [if_pos hii]
        exact h3
      · rw [if_neg hii] at hi ⊢
        exact h2 i hi
    rw [refWalk]
    by_cases hz : s.entries_list (getIdx bin (s.replace_position bin)) = 0
    · simp only [hz, if_pos rfl]
      exact ⟨h1', h2', Or.inl rfl⟩
    · simp only [hz, ite_false, if_neg hz]
      exact ih _ _ h1' h2' (h2 _ hz)

theorem refFinish_known (position pos_log2 : ℕ) (w : ℕ × RR) (P : ℕ → Prop)
    (h1 : ∀ a p, w.2.entries_map a = some p → a = 0 ∨ P a)
    (h2 : ∀ i, w.2.entries_list i ≠ 0 → P (w.2.entries_list i))
    (h3 : w.1 = 0 ∨ P w.1) :
    (∀ a p, (refFinish position pos_log2 w).2.entries_map a = some p → a = 0 ∨ P a) ∧
      (∀ i, (refFinish position pos_log2 w).2.entries_list i ≠ 0 →
        P ((refFinish position pos_log2 w).2.entries_list i)) := by
  rw [refFinish]
  split_ifs with hA hB
  · constructor
    · intro a p hp
      by_cases ha : a = w.1
      · subst ha
        rcases h3 with h3 | h3
        · exact Or.inl h3
        · exact Or.inr h3
      · simp only [if_neg ha] at hp
        exact h1 a p hp
    · intro i hi
      by_cases hii : i = position
      · simp only [hii, if_pos rfl] at hi ⊢
        rcases h3 with h3 | h3
        · exact absurd h3 hi
        · exact h3
      · simp only [if_neg hii] at hi ⊢
        exact h2 i hi
  · constructor
    · intro a p hp
      by_cases ha : a = w.1
      · simp only [ha, if_pos rfl] at hp
        cases hp
      · simp only [if_neg ha] at hp
        exact h1 a p hp
    · exact h2
  · exact ⟨h1, h2⟩

theorem referenceRR_known (a : ℕ) (s : RR) (P : ℕ → Prop) (hPa : P a)
    (h1 : ∀ b p, s.entries_map b = some p → b = 0 ∨ P b)
    (h2 : ∀ i, s.entries_list i ≠ 0 → P (s.entries_list i)) :
    (∀ b p, (referenceRR a s).2.entries_map b = some p → b = 0 ∨ P b) ∧
      (∀ i, (referenceRR a s).2.entries_list i ≠ 0 →
        P ((referenceRR a s).2.entries_list i)) := by
  rw [referenceRR]
  cases hmap : s.entries_map a with
  | some position =>
    by_cases hps : position < MIN_SIZE
    · simp only [if_pos hps]
      exact ⟨h1, h2⟩
    · simp only [if_neg hps]
      obtain ⟨w1, w2, w3⟩ := refWalk_known _ P a s h1 h2 hPa
      exact refFinish_known _ _ _ P w1 w2 w3
  | none =>
    obtain ⟨w1, w2, w3⟩ := refWalk_known _ P a s h1 h2 hPa
    exact refFinish_known _ _ _ P w1 w2 w3

theorem runRR_known (l : List ℕ) :
    (∀ a p, (runRR l).entries_map a = some p → a = 0 ∨ a ∈ l) ∧
      (∀ i, (runRR l).entries_list i ≠ 0 → (runRR l).entries_list i ∈ l) := by
  induction l using List.reverseRecOn with
  | nil =>
    constructor
    · intro a p hp
      cases hp
    · intro i hi
      exact absurd rfl hi
  | append_singleton l x ih =>
    rw [runRR_append_singleton]
    have h1 : ∀ a p, (runRR l).entries_map a = some p → a = 0 ∨ a ∈ l ++ [x] := by
      intro a p hp
      rcases ih.1 a p hp with h | h
      · exact Or.inl h
      · exact Or.inr (List.mem_append.2 (Or.inl h))
    have h2 : ∀ i, (runRR l).entries_list i ≠ 0 → (runRR l).entries_list i ∈ l ++ [x] :=
      fun i hi => List.mem_append.2 (Or.inl (ih.2 i hi))
    exact referenceRR_known x (runRR l) (· ∈ l ++ [x]) (by simp) h1 h2

/-- Claim C8: a never-before-referenced address gets the maximal bucket
from both trackers: the Recency Tree reports
`int_log2(INT_MAX) = floor(log2(2^31 - 1))` and the Tiered Pool
Approximator reports exactly `MAX_SIZE_BITS`. -/
theorem C8_first_touch (l : List ℕ) (x : ℕ) (hx : x ∉ l) (hx0 : x ≠ 0) :
    (referenceT x (runT l)).1 = Nat.log2 INT_MAX ∧
      (referenceRR x (runRR l)).1 = MAX_SIZE_BITS := by
  constructor
  · obtain ⟨hpre, hseen, -⟩ := runT_inv l
    have hxs : x ∉ (runT l).seen := fun hc => hx (by
      have hmm := (hseen x).1 hc
      rw [hpre, mem_mruList] at hmm
      exact hmm)
    rw [referenceT, if_neg hxs]
    exact int_log2_eq INT_MAX (by norm_num [INT_MAX]) (by norm_num [INT_MAX])
  · have hmap : (runRR l).entries_map x = none := by
      cases hmm : (runRR l).entries_map x with
      | none => rfl
      | some p =>
        rcases (runRR_known l).1 x p hmm with h0 | hmem
        · exact absurd h0 hx0
        · exact absurd hmem hx
    simp only [referenceRR, hmap]
    exact refFinish_fst _ _ _

theorem C8_witness :
    (1 : ℕ) ∉ ([] : List ℕ) ∧ (1 : ℕ) ≠ 0 ∧
      (referenceT 1 (runT [])).1 = Nat.log2 INT_MAX ∧
      (referenceRR 1 (runRR [])).1 = MAX_SIZE_BITS :=
  ⟨by decide, by decide, (C8_first_touch [] 1 (by decide) (by decide)).1,
    (C8_first_touch [] 1 (by decide) (by decide)).2⟩

/-- Claim C5 as amended: every reference call either leaves a tier's
round-robin cursor unchanged or advances it by one modulo `2^(b-1)` — for
every tier `b` including `MIN_SIZE_BITS`, whose cursor therefore wraps at
`2^(MIN_SIZE_BITS - 1) = 512`, half the `MIN_SIZE` capacity the
specification assigns that tier — and every cursor stays strictly below
`2^(b-1)`. -/
theorem C5_amended (l : List ℕ) (a b : ℕ) (hb1 : MIN_SIZE_BITS ≤ b)
    (hb2 : b < MAX_SIZE_BITS) :
    ((referenceRR a (runRR l)).2.replace_position b = (runRR l).replace_position b ∨
      (referenceRR a (runRR l)).2.replace_position b =
        ((runRR l).replace_position b + 1) % 2 ^ (b - 1)) ∧
      (referenceRR a (runRR l)).2.replace_position b < 2 ^ (b - 1) := by
  obtain ⟨hm, hr⟩ := runRR_bound l
  have hdisj : (referenceRR a (runRR l)).2.replace_position b =
      (runRR l).replace_position b ∨
      (referenceRR a (runRR l)).2.replace_position b =
        ((runRR l).replace_position b + 1) % 2 ^ (b - 1) := by
    rw [referenceRR]
    cases hmap : (runRR l).entries_map a with
    | some position =>
      by_cases hps : position < MIN_SIZE
      · simp [if_pos hps]
      · simp only [if_neg hps]
        rw [show ∀ w : ℕ × RR, (refFinish position (int_log2 position) w).2.replace_position b =
            w.2.replace_position b from fun w => by rw [refFinish_rp]]
        exact refWalk_rp _ (List.nodup_range' _ _) a (runRR l) b
    | none =>
      rw [show ∀ w : ℕ × RR, (refFinish MAX_SIZE MAX_SIZE_BITS w).2.replace_position b =
          w.2.replace_position b from fun w => by rw [refFinish_rp]]
      exact refWalk_rp _ (List.nodup_range' _ _) a (runRR l) b
  refine ⟨hdisj, ?_⟩
  rcases hdisj with h | h <;> rw [h]
  · exact hr b hb1 hb2
  · exact Nat.mod_lt _ (Nat.pos_pow_of_pos _ (by norm_num))

set_option maxRecDepth 1000000 in
set_option maxHeartbeats 8000000 in
/-- Claim C5, counterexample: after 511 fresh references the
`MIN_SIZE_BITS` tier's cursor stands at 511; the 512th fresh reference
walks that tier, after which the cursor reads `0` — yet the claim (tier
`MIN_SIZE_BITS` having capacity `MIN_SIZE = 1024`) predicts either 511
(tier not walked) or `(511 + 1) % MIN_SIZE = 512`: the cursor actually
wraps modulo `2^(MIN_SIZE_BITS - 1) = 512`. -/
theorem C5_counterexample :
    (runRR (List.range' 1 511)).replace_position MIN_SIZE_BITS = 511 ∧
      (runRR (List.range' 1 512)).replace_position MIN_SIZE_BITS = 0 ∧
      (511 + 1) % MIN_SIZE = 512 ∧ (0 : ℕ) ≠ 511 ∧ (0 : ℕ) ≠ 512 := by
  exact ⟨by decide, by decide, by decide, by decide, by decide⟩

/-! ### Slot geometry for the tier invariant (claim C6) -/

theorem validSlot_lt {p : ℕ} (h : validSlot p) : p < MAX_SIZE := by
  have hm : MAX_SIZE = 2 ^ 24 := rfl
  rcases h with h | h
  · omega
  · omega

theorem validSlot_getIdx {b c : ℕ} (hb1 : MIN_SIZE_BITS ≤ b) (hb2 : b < MAX_SIZE_BITS)
    (hc : c < 2 ^ (b - 1)) : validSlot (getIdx b c) := by
  have hb1' : 10 ≤ b := hb1
  have hb2' : b < 24 := hb2
  rw [getIdx]
  split_ifs with h
  · have h10 : b = 10 := h
    subst h10
    exact Or.inl (by omega)
  · right
    have hbne : b ≠ 10 := fun hc' => h hc'
    have h1 : (2 : ℕ) ^ 10 ≤ 2 ^ (b - 1) := Nat.pow_le_pow_right (by norm_num) (by omega)
    have e : b - 1 + 1 = b := by omega
    have h2b : (2 : ℕ) ^ (b - 1) + 2 ^ (b - 1) = 2 ^ b := by
      conv_rhs => rw [← e]
      rw [pow_succ]
      omega
    have hble : (2 : ℕ) ^ b ≤ 2 ^ 24 := Nat.pow_le_pow_right (by norm_num) (by omega)
    omega

theorem getIdx_lt_pow {b c : ℕ} (hb1 : MIN_SIZE_BITS ≤ b) (hc : c < 2 ^ (b - 1)) :
    getIdx b c < 2 ^ b := by
  have hb1' : 10 ≤ b := hb1
  rw [getIdx]
  split_ifs with h
  · have h10 : b = 10 := h
    subst h10
    have : (2 : ℕ) ^ 9 ≤ 2 ^ 10 := by norm_num
    omega
  · have e : b - 1 + 1 = b := by omega
    have h2b : (2 : ℕ) ^ (b - 1) + 2 ^ (b - 1) = 2 ^ b := by
      conv_rhs => rw [← e]
      rw [pow_succ]
      omega
    omega

theorem pow_le_getIdx {b c : ℕ} (hb : 10 < b) : 2 ^ (b - 1) ≤ getIdx b c := by
  have h10 : MIN_SIZE_BITS = 10 := rfl
  rw [getIdx, if_neg (by omega : ¬b = MIN_SIZE_BITS)]
  omega

theorem getIdx_lt_getIdx {b c b' c' : ℕ} (hb1 : MIN_SIZE_BITS ≤ b)
    (hc : c < 2 ^ (b - 1)) (hlt : b < b') : getIdx b c < getIdx b' c' := by
  have h1 : getIdx b c < 2 ^ b := getIdx_lt_pow hb1 hc
  have h2 : (2 : ℕ) ^ b ≤ 2 ^ (b' - 1) := Nat.pow_le_pow_right (by norm_num) (by omega)
  have h3 : (2 : ℕ) ^ (b' - 1) ≤ getIdx b' c' := pow_le_getIdx (by
    have : 10 ≤ b := hb1
    omega)
  omega

theorem getIdx_ne {b c b' c' : ℕ} (hb1 : MIN_SIZE_BITS ≤ b) (hb1' : MIN_SIZE_BITS ≤ b')
    (hc : c < 2 ^ (b - 1)) (hc' : c' < 2 ^ (b' - 1)) (hne : b ≠ b') :
    getIdx b c ≠ getIdx b' c' := by
  rcases Nat.lt_or_ge b b' with h | h
  · exact Nat.ne_of_lt (getIdx_lt_getIdx hb1 hc h)
  · have hblt : b' < b := lt_of_le_of_ne h (fun he => hne he.symm)
    exact (Nat.ne_of_lt (getIdx_lt_getIdx hb1' hc' hblt)).symm

/-- Occupancy-preserving state changes preserve `tierFull`. -/
theorem tierFull_of_occ {s s' : RR} {b : ℕ}
    (hocc : ∀ i, s'.entries_list i ≠ 0 ↔ s.entries_list i ≠ 0)
    (h : tierFull s b) : tierFull s' b :=
  fun c hc => (hocc _).2 (h c hc)

/-- Occupancy-preserving state changes preserve `fillOK`. -/
theorem fillOK_of_occ {s s' : RR}
    (hocc : ∀ i, s'.entries_list i ≠ 0 ↔ s.entries_list i ≠ 0)
    (h : fillOK s) : fillOK s' := by
  intro b hb1 hb2 hex
  refine tierFull_of_occ hocc (h b hb1 hb2 ?_)
  obtain ⟨j, hj1, hj2⟩ := hex
  exact ⟨j, hj1, (hocc j).1 hj2⟩

theorem refWalk_cons_of_ne {bin : ℕ} {s : RR} (rest : List ℕ) (item : ℕ)
    (h : s.entries_list (getIdx bin (s.replace_position bin)) ≠ 0) :
    refWalk item s (bin :: rest) =
      refWalk (s.entries_list (getIdx bin (s.replace_position bin)))
        { entries_map := fun a =>
            if a = item then some (getIdx bin (s.replace_position bin)) else s.entries_map a
          entries_list := fun i =>
            if i = getIdx bin (s.replace_position bin) then item else s.entries_list i
          replace_position := fun b =>
            if b = bin then (s.replace_position bin + 1) &&& (2 ^ (bin - 1) - 1)
            else s.replace_position b } rest := by
  rw [refWalk]
  simp only [h, ite_false, if_neg h]

theorem refWalk_cons_of_eq {bin : ℕ} {s : RR} (rest : List ℕ) (item : ℕ)
    (h : s.entries_list (getIdx bin (s.replace_position bin)) = 0) :
    refWalk item s (bin :: rest) =
      (0,
        { entries_map := fun a =>
            if a = item then some (getIdx bin (s.replace_position bin)) else s.entries_map a
          entries_list := fun i =>
            if i = getIdx bin (s.replace_position bin) then item else s.entries_list i
          replace_position := fun b =>
            if b = bin then (s.replace_position bin + 1) &&& (2 ^ (bin - 1) - 1)
            else s.replace_position b }) := by
  rw [refWalk]
  simp only [h, ite_true, if_pos rfl]

/-- The promotion walk of a hit, over tiers that are all full: no early
break happens, the carried item stays nonzero, the ghost state
`vstate _ _ hole` keeps the map/list bijection, occupancy is untouched,
and cursors stay in range. -/
theorem refWalk_hit (n : ℕ) :
    ∀ b₀ it t hole,
      MIN_SIZE_BITS ≤ b₀ → b₀ + n ≤ MAX_SIZE_BITS →
      2 ^ (b₀ + n) ≤ hole → validSlot hole → it ≠ 0 →
      (∀ b, b₀ ≤ b → b < b₀ + n → tierFull t b) →
      rpOK t →
      mapOK (vstate t it hole) → listOK (vstate t it hole) →
      occOK (vstate t it hole) →
      (refWalk it t (List.range' b₀ n)).1 ≠ 0 ∧
        mapOK (vstate (refWalk it t (List.range' b₀ n)).2
          (refWalk it t (List.range' b₀ n)).1 hole) ∧
        listOK (vstate (refWalk it t (List.range' b₀ n)).2
          (refWalk it t (List.range' b₀ n)).1 hole) ∧
        occOK (vstate (refWalk it t (List.range' b₀ n)).2
          (refWalk it t (List.range' b₀ n)).1 hole) ∧
        (∀ i, (refWalk it t (List.range' b₀ n)).2.entries_list i ≠ 0 ↔
          t.entries_list i ≠ 0) ∧
        rpOK (refWalk it t (List.range' b₀ n)).2 := by
  induction n with
  | zero =>
    intro b₀ it t hole _ _ _ _ hit0 _ hrp hm hl ho
    exact ⟨hit0, hm, hl, ho, fun i => Iff.rfl, hrp⟩
  | succ n ih =>
    intro b₀ it t hole hb1 hb2 hhole hvs hit0 hfull hrp hm hl ho
    have hb1' : 10 ≤ b₀ := hb1
    have hb2' : b₀ + (n + 1) ≤ 24 := hb2
    have hc : t.replace_position b₀ < 2 ^ (b₀ - 1) := hrp b₀ hb1 (by
      show b₀ < 24
      omega)
    have hevict : t.entries_list (getIdx b₀ (t.replace_position b₀)) ≠ 0 :=
      hfull b₀ le_rfl (by omega) _ hc
    set idx := getIdx b₀ (t.replace_position b₀) with hidxdef
    set c0 := t.entries_list idx with hc0def
    have hidx_lt : idx < 2 ^ b₀ := getIdx_lt_pow hb1 hc
    have hidx_hole : idx ≠ hole := by
      have h1 : (2 : ℕ) ^ b₀ ≤ 2 ^ (b₀ + (n + 1)) :=
        Nat.pow_le_pow_right (by norm_num) (by omega)
      omega
    have hvs_idx : validSlot idx := validSlot_getIdx hb1 (by show b₀ < 24; omega) hc
    -- facts in the ghost state
    have hv_lst_hole : (vstate t it hole).entries_list hole = it := by simp [vstate]
    have hv_lst_idx : (vstate t it hole).entries_list idx = c0 := by
      simp [vstate, hidx_hole]
    have hv_map_it : (vstate t it hole).entries_map it = some hole := by
      have := hl hole (by rw [hv_lst_hole]; exact hit0)
      rw [hv_lst_hole] at this
      exact this
    have hv_map_c0 : (vstate t it hole).entries_map c0 = some idx := by
      have := hl idx (by rw [hv_lst_idx]; exact hevict)
      rw [hv_lst_idx] at this
      exact this
    have hit_c0 : it ≠ c0 := by
      intro he
      rw [← he] at hv_map_c0
      rw [hv_map_it] at hv_map_c0
      injection hv_map_c0 with h
      exact hidx_hole h.symm
    have hrange : List.range' b₀ (n + 1) = b₀ :: List.range' (b₀ + 1) n :=
      List.range'_succ b₀ n 1
    rw [hrange, refWalk_cons_of_ne _ it hevict]
    set t' : RR :=
      { entries_map := fun a => if a = it then some idx else t.entries_map a
        entries_list := fun i => if i = idx then it else t.entries_list i
        replace_position := fun b =>
          if b = b₀ then (t.replace_position b₀ + 1) &&& (2 ^ (b₀ - 1) - 1)
          else t.replace_position b } with ht'
    -- step facts
    have hocc' : ∀ i, t'.entries_list i ≠ 0 ↔ t.entries_list i ≠ 0 := by
      intro i
      by_cases hi : i = idx
      · subst hi
        simp [ht', hit0, hevict]
      · simp [ht', hi]
    have hfull' : ∀ b, b₀ + 1 ≤ b → b < b₀ + 1 + n → tierFull t' b := by
      intro b hbl hbr c' hc'
      have hne : getIdx b c' ≠ idx :=
        getIdx_ne (by show 10 ≤ b; omega) hb1 hc' hc (by omega)
      rw [ht']
      simpa [hne] using hfull b (by omega) (by omega) c' hc'
    have hrp' : rpOK t' := by
      intro b hbl hbr
      by_cases hbb : b = b₀
      · subst hbb
        rw [ht']
        simp only [if_pos rfl, land_two_pow_sub_one]
        exact Nat.mod_lt _ (Nat.pos_pow_of_pos _ (by norm_num))
      · rw [ht']
        simpa [hbb] using hrp b hbl hbr
    -- ghost-state transfer
    have hm' : mapOK (vstate t' c0 hole) := by
      intro a p hp
      simp only [vstate, ht'] at hp
      by_cases ha1 : a = c0
      · rw [if_pos ha1] at hp
        injection hp with hp
        subst hp
        refine ⟨ha1 ▸ hevict, ?_, hvs⟩
        simp [vstate, ha1]
      · rw [if_neg ha1] at hp
        by_cases ha2 : a = it
        · rw [if_pos ha2] at hp
          injection hp with hp
          subst hp
          refine ⟨ha2 ▸ hit0, ?_, hvs_idx⟩
          simp [vstate, ht', hidx_hole, ha2]
        · rw [if_neg ha2] at hp
          have hv : (vstate t it hole).entries_map a = some p := by
            simp [vstate, ha2, hp]
          obtain ⟨haz, hlst, hvp⟩ := hm a p hv
          refine ⟨haz, ?_, hvp⟩
          have hp_hole : p ≠ hole := by
            intro he
            rw [he, hv_lst_hole] at hlst
            exact ha2 hlst.symm
          have hp_idx : p ≠ idx := by
            intro he
            rw [he, hv_lst_idx] at hlst
            exact ha1 hlst.symm
          rw [vstate] at hlst ⊢
          simp only [hp_hole, ite_false, if_neg hp_hole] at hlst ⊢
          simpa [ht', hp_idx] using hlst
    have hl' : listOK (vstate t' c0 hole) := by
      intro i hi
      by_cases hih : i = hole
      · have h1 : (vstate t' c0 hole).entries_list i = c0 := by simp [vstate, hih]
        rw [h1]
        simp [vstate, hih]
      · have hval : (vstate t' c0 hole).entries_list i = t'.entries_list i := by
          simp [vstate, hih]
        rw [hval] at hi ⊢
        by_cases hii : i = idx
        · subst hii
          have hx : t'.entries_list idx = it := by simp [ht']
          rw [hx]
          simp [vstate, ht', hit_c0]
        · have hvw : t'.entries_list i = t.entries_list i := by simp [ht', hii]
          rw [hvw] at hi ⊢
          have hwv : (vstate t it hole).entries_list i = t.entries_list i := by
            simp [vstate, hih]
          have hlv := hl i (by rw [hwv]; exact hi)
          rw [hwv] at hlv
          have hw_c0 : t.entries_list i ≠ c0 := by
            intro he
            rw [he, hv_map_c0] at hlv
            injection hlv with hlv
            exact hii hlv.symm
          have hw_it : t.entries_list i ≠ it := by
            intro he
            rw [he, hv_map_it] at hlv
            injection hlv with hlv
            exact hih hlv.symm
          simp only [vstate, ht', if_neg hw_c0, if_neg hw_it]
          simpa [vstate, ht', hw_it] using hlv
    have ho' : occOK (vstate t' c0 hole) := by
      intro i hi
      by_cases hih : i = hole
      · subst hih; exact hvs
      · have hval : (vstate t' c0 hole).entries_list i = t'.entries_list i := by
          simp [vstate, hih]
        rw [hval] at hi
        by_cases hii : i = idx
        · subst hii; exact hvs_idx
        · have hvw : t'.entries_list i = t.entries_list i := by simp [ht', hii]
          rw [hvw] at hi
          refine ho i ?_
          simp [vstate, hih, hi]
    obtain ⟨r1, r2, r3, r4, r5, r6⟩ := ih (b₀ + 1) c0 t' hole
      (by show 10 ≤ b₀ + 1; omega)
      (by show b₀ + 1 + n ≤ 24; omega)
      (by
        have he : b₀ + 1 + n = b₀ + (n + 1) := by omega
        rw [he]
        exact hhole)
      hvs hevict hfull' hrp' hm' hl' ho'
    exact ⟨r1, r2, r3, r4, fun i => (r5 i).trans (hocc' i), r6⟩

theorem tierPartial_transfer {s s' : RR} {b : ℕ}
    (hocc : ∀ i, s'.entries_list i ≠ 0 ↔ s.entries_list i ≠ 0)
    (hrp : s'.replace_position b = s.replace_position b)
    (h : tierPartial s b) : tierPartial s' b := by
  refine ⟨hrp ▸ h.1, fun c hc => ?_⟩
  rw [hrp]
  exact (hocc _).trans (h.2 c hc)

/-- The promotion walk of a miss: tiers get walked until the first one
still filling (whose cursor slot is empty), where the walk breaks after
parking the carried item; the map/list bijection holds on the final state
directly when the item was parked (`item = 0` returned), and on the ghost
state `wstate` (item logically evicted) when the item fell through every
tier.  Tier shape (`fillOK`, `tiersOK`, cursor bounds) is preserved. -/
theorem refWalk_miss (n : ℕ) :
    ∀ b₀ it t,
      MIN_SIZE_BITS ≤ b₀ → b₀ + n ≤ MAX_SIZE_BITS → it ≠ 0 →
      (∀ i, t.entries_list i ≠ it) →
      mapOK (wstate t it) → listOK (wstate t it) → occOK t →
      fillOK t → tiersOK t → rpOK t →
      (∀ b, MIN_SIZE_BITS ≤ b → b < b₀ → tierFull t b) →
      fillOK (refWalk it t (List.range' b₀ n)).2 ∧
        tiersOK (refWalk it t (List.range' b₀ n)).2 ∧
        rpOK (refWalk it t (List.range' b₀ n)).2 ∧
        (((refWalk it t (List.range' b₀ n)).1 = 0 ∧
            mapOK (refWalk it t (List.range' b₀ n)).2 ∧
            listOK (refWalk it t (List.range' b₀ n)).2 ∧
            occOK (refWalk it t (List.range' b₀ n)).2) ∨
          ((refWalk it t (List.range' b₀ n)).1 ≠ 0 ∧
            mapOK (wstate (refWalk it t (List.range' b₀ n)).2
              (refWalk it t (List.range' b₀ n)).1) ∧
            listOK (wstate (refWalk it t (List.range' b₀ n)).2
              (refWalk it t (List.range' b₀ n)).1) ∧
            occOK (refWalk it t (List.range' b₀ n)).2 ∧
            (∀ i, (refWalk it t (List.range' b₀ n)).2.entries_list i ≠
              (refWalk it t (List.range' b₀ n)).1))) := by
  induction n with
  | zero =>
    intro b₀ it t _ _ hit0 hnotin hm hl ho hf htr hrp _
    exact ⟨hf, htr, hrp, Or.inr ⟨hit0, hm, hl, ho, hnotin⟩⟩
  | succ n ih =>
    intro b₀ it t hb1 hb2 hit0 hnotin hm hl ho hf htr hrp hbelow
    have hb1' : 10 ≤ b₀ := hb1
    have hb2' : b₀ + (n + 1) ≤ 24 := hb2
    have hc : t.replace_position b₀ < 2 ^ (b₀ - 1) := hrp b₀ hb1 (by
      show b₀ < 24
      omega)
    set idx := getIdx b₀ (t.replace_position b₀) with hidxdef
    have hvs_idx : validSlot idx := validSlot_getIdx hb1 (by show b₀ < 24; omega) hc
    have hidx_lt : idx < 2 ^ b₀ := getIdx_lt_pow hb1 hc
    have hrange : List.range' b₀ (n + 1) = b₀ :: List.range' (b₀ + 1) n :=
      List.range'_succ b₀ n 1
    rw [hrange]
    by_cases hz : t.entries_list idx = 0
    · -- the cursor slot is empty: park the item and break
      rw [refWalk_cons_of_eq _ it hz]
      set t' : RR :=
        { entries_map := fun a => if a = it then some idx else t.entries_map a
          entries_list := fun i => if i = idx then it else t.entries_list i
          replace_position := fun b =>
            if b = b₀ then (t.replace_position b₀ + 1) &&& (2 ^ (b₀ - 1) - 1)
            else t.replace_position b } with ht'
      have hpart : tierPartial t b₀ := by
        rcases htr b₀ hb1 (by show b₀ < 24; omega) with hfl | hpt
        · exact absurd (hfl _ hc) (by simpa using hz)
        · exact hpt
      have hoccsup : ∀ i, t.entries_list i ≠ 0 → t'.entries_list i ≠ 0 := by
        intro i hi
        by_cases hii : i = idx
        · rw [ht']
          simpa [hii] using hit0
        · rw [ht']
          simpa [hii] using hi
      have hfull' : ∀ b, MIN_SIZE_BITS ≤ b → b < MAX_SIZE_BITS → tierFull t b →
          tierFull t' b := fun b _ _ hfb c' hc' => hoccsup _ (hfb c' hc')
      refine ⟨?_, ?_, ?_, Or.inl ⟨rfl, ?_, ?_, ?_⟩⟩
      · -- fillOK
        intro b hbl hbr hex
        refine hfull' b hbl hbr ?_
        obtain ⟨j, hj1, hj2⟩ := hex
        by_cases hji : j = idx
        · subst hji
          have hblt : b < b₀ := by
            by_contra hge
            push_neg at hge
            have : (2 : ℕ) ^ b₀ ≤ 2 ^ b := Nat.pow_le_pow_right (by norm_num) hge
            omega
          exact hbelow b hbl hblt
        · refine hf b hbl hbr ⟨j, hj1, ?_⟩
          rw [ht'] at hj2
          simpa [hji] using hj2
      · -- tiersOK
        intro b hbl hbr
        by_cases hbb : b = b₀
        · subst hbb
          obtain ⟨hrpb, hiff⟩ := hpart
          have hrpb' : t'.replace_position b =
              (t.replace_position b + 1) % 2 ^ (b - 1) := by
            simp [ht', land_two_pow_sub_one]
          have hlst_at : ∀ c', c' < 2 ^ (b - 1) → c' ≠ t.replace_position b →
              t'.entries_list (getIdx b c') = t.entries_list (getIdx b c') := by
            intro c' _ hne
            have hcc : getIdx b c' ≠ idx := by
              intro he
              rw [hidxdef] at he
              rw [getIdx, getIdx] at he
              split_ifs at he <;> omega
            simp only [ht']
            simp [hcc]
          have hlst_rp : t'.entries_list (getIdx b (t.replace_position b)) = it := by
            simp only [ht']
            simp [← hidxdef]
          by_cases hwrap : t.replace_position b + 1 < 2 ^ (b - 1)
          · right
            refine ⟨?_, ?_⟩
            · rw [hrpb', Nat.mod_eq_of_lt hwrap]
              exact hwrap
            · intro c' hc'
              rw [hrpb', Nat.mod_eq_of_lt hwrap]
              by_cases hcr : c' = t.replace_position b
              · rw [hcr, hlst_rp]
                constructor
                · intro _
                  omega
                · intro _
                  exact hit0
              · rw [hlst_at c' hc' hcr, hiff c' hc']
                omega
          · left
            intro c' hc'
            by_cases hcr : c' = t.replace_position b
            · rw [hcr, hlst_rp]
              exact hit0
            · rw [hlst_at c' hc' hcr, hiff c' hc']
              omega
        · have hocc_b : ∀ c', c' < 2 ^ (b - 1) →
              t'.entries_list (getIdx b c') = t.entries_list (getIdx b c') := by
            intro c' hc'
            have hne : getIdx b c' ≠ idx :=
              getIdx_ne hbl hb1 hc' hc hbb
            rw [ht']
            simp [hne]
          rcases htr b hbl hbr with hfl | hpt
          · left
            intro c' hc'
            rw [hocc_b c' hc']
            exact hfl c' hc'
          · right
            refine ⟨?_, ?_⟩
            · rw [ht']
              simpa [hbb] using hpt.1
            · intro c' hc'
              rw [hocc_b c' hc']
              have hrpb : t'.replace_position b = t.replace_position b := by
                rw [ht']
                simp [hbb]
              rw [hrpb]
              exact hpt.2 c' hc'
      · -- rpOK
        intro b hbl hbr
        by_cases hbb : b = b₀
        · subst hbb
          rw [ht']
          simp only [if_pos rfl, land_two_pow_sub_one]
          exact Nat.mod_lt _ (Nat.pos_pow_of_pos _ (by norm_num))
        · rw [ht']
          simpa [hbb] using hrp b hbl hbr
      · -- mapOK of the final (parked) state
        intro a p hp
        simp only [ht'] at hp
        by_cases ha : a = it
        · rw [if_pos ha] at hp
          injection hp with hp
          subst hp
          refine ⟨ha ▸ hit0, ?_, hvs_idx⟩
          simp only [ht', ha]
          simp
        · rw [if_neg ha] at hp
          have hw : (wstate t it).entries_map a = some p := by
            simp only [wstate]
            simpa [ha] using hp
          obtain ⟨haz, hlst, hvp⟩ := hm a p hw
          refine ⟨haz, ?_, hvp⟩
          have hlst' : t.entries_list p = a := hlst
          have hp_idx : p ≠ idx := by
            intro he
            rw [he, hz] at hlst'
            exact haz hlst'.symm
          simp only [ht']
          simpa [hp_idx] using hlst'
      · -- listOK of the final (parked) state
        intro i hi
        simp only [ht'] at hi ⊢
        by_cases hii : i = idx
        · simp only [hii, if_pos rfl] at hi ⊢
          simp
        · simp only [hii, ite_false, if_neg hii] at hi ⊢
          have hw := hl i (by show t.entries_list i ≠ 0; exact hi)
          have hwit : t.entries_list i ≠ it := hnotin i
          simp only [wstate] at hw
          simp only [hwit, ite_false, if_neg hwit] at hw
          simpa [hwit] using hw
      · -- occOK of the final (parked) state
        intro i hi
        simp only [ht'] at hi
        by_cases hii : i = idx
        · exact hii ▸ hvs_idx
        · refine ho i ?_
          simpa [hii] using hi
    · -- the cursor slot is occupied: evict its occupant and continue
      have hfull₀ : tierFull t b₀ := by
        rcases htr b₀ hb1 (by show b₀ < 24; omega) with hfl | hpt
        · exact hfl
        · exact absurd ((hpt.2 _ hc).1 hz) (by omega)
      rw [refWalk_cons_of_ne _ it hz]
      set c0 := t.entries_list idx with hc0def
      set t' : RR :=
        { entries_map := fun a => if a = it then some idx else t.entries_map a
          entries_list := fun i => if i = idx then it else t.entries_list i
          replace_position := fun b =>
            if b = b₀ then (t.replace_position b₀ + 1) &&& (2 ^ (b₀ - 1) - 1)
            else t.replace_position b } with ht'
      have hit_c0 : it ≠ c0 := fun he => (hnotin idx) (hc0def ▸ he.symm)
      have hocc' : ∀ i, t'.entries_list i ≠ 0 ↔ t.entries_list i ≠ 0 := by
        intro i
        by_cases hii : i = idx
        · rw [ht']
          subst hii
          simp [hit0, hz]
        · rw [ht']
          simp [hii]
      have hw2 : (wstate t it).entries_map c0 = some idx := hl idx hz
      have hnotin' : ∀ i, t'.entries_list i ≠ c0 := by
        intro i
        rw [ht']
        by_cases hii : i = idx
        · simpa [hii] using hit_c0
        · simp only [hii, ite_false, if_neg hii]
          intro he
          have hi0 : (wstate t it).entries_list i ≠ 0 := by
            show t.entries_list i ≠ 0
            rw [he]
            exact hz
          have hw := hl i hi0
          have hw1 : (wstate t it).entries_map c0 = some i := by
            rw [← he]
            exact hw
          rw [hw2] at hw1
          injection hw1 with hw1
          exact hii hw1.symm
      have hm' : mapOK (wstate t' c0) := by
        intro a p hp
        simp only [wstate] at hp
        by_cases ha0 : a = c0
        · rw [if_pos ha0] at hp
          cases hp
        · rw [if_neg ha0] at hp
          by_cases ha : a = it
          · rw [if_pos ha] at hp
            injection hp with hp
            subst hp
            refine ⟨ha ▸ hit0, ?_, hvs_idx⟩
            show t'.entries_list idx = a
            simp only [ht', ha]
            simp
          · rw [if_neg ha] at hp
            have hw : (wstate t it).entries_map a = some p := by
              simp only [wstate]
              simpa [ha] using hp
            obtain ⟨haz, hlst, hvp⟩ := hm a p hw
            refine ⟨haz, ?_, hvp⟩
            have hlst' : t.entries_list p = a := hlst
            have hp_idx : p ≠ idx := by
              intro he
              rw [he] at hlst'
              exact ha0 hlst'.symm
            show t'.entries_list p = a
            simp only [ht']
            simpa [hp_idx] using hlst'
      have hl' : listOK (wstate t' c0) := by
        intro i hi
        have hi' : t'.entries_list i ≠ 0 := hi
        show (wstate t' c0).entries_map (t'.entries_list i) = some i
        by_cases hii : i = idx
        · have hval : t'.entries_list i = it := by
            simp only [ht']
            simp [hii]
          rw [hval]
          simp only [wstate]
          rw [if_neg hit_c0]
          simp [ht', hii]
        · have hval : t'.entries_list i = t.entries_list i := by
            simp only [ht']
            simp [hii]
          rw [hval]
          rw [hval] at hi'
          have hwit : t.entries_list i ≠ it := hnotin i
          have hwc0 : t.entries_list i ≠ c0 := by
            have hni := hnotin' i
            rw [hval] at hni
            exact hni
          have hw := hl i (by show t.entries_list i ≠ 0; exact hi')
          simp only [wstate] at hw ⊢
          rw [if_neg hwit] at hw
          rw [if_neg hwc0]
          simpa [ht', hwit] using hw
      have ho' : occOK t' := by
        intro i hi
        by_cases hii : i = idx
        · exact hii ▸ hvs_idx
        · refine ho i ?_
          simp only [ht'] at hi
          simpa [hii] using hi
      have hf' : fillOK t' := fillOK_of_occ hocc' hf
      have htr' : tiersOK t' := by
        intro b hbl hbr
        by_cases hbb : b = b₀
        · subst hbb
          exact Or.inl (tierFull_of_occ hocc' hfull₀)
        · rcases htr b hbl hbr with hfl | hpt
          · exact Or.inl (tierFull_of_occ hocc' hfl)
          · refine Or.inr (tierPartial_transfer hocc' ?_ hpt)
            rw [ht']
            simp [hbb]
      have hrp' : rpOK t' := by
        intro b hbl hbr
        by_cases hbb : b = b₀
        · subst hbb
          rw [ht']
          simp only [if_pos rfl, land_two_pow_sub_one]
          exact Nat.mod_lt _ (Nat.pos_pow_of_pos _ (by norm_num))
        · rw [ht']
          simpa [hbb] using hrp b hbl hbr
      have hbelow' : ∀ b, MIN_SIZE_BITS ≤ b → b < b₀ + 1 → tierFull t' b := by
        intro b hbl hbr
        by_cases hbb : b = b₀
        · subst hbb
          exact tierFull_of_occ hocc' hfull₀
        · exact tierFull_of_occ hocc' (hbelow b hbl (by
            have : b < b₀ + 1 := hbr
            omega))
      exact ih (b₀ + 1) c0 t' (by show 10 ≤ b₀ + 1; omega)
        (by show b₀ + 1 + n ≤ 24; omega) hz hnotin' hm' hl' ho' hf' htr' hrp' hbelow'

theorem refFinish_hit_state (position pl : ℕ) (w : ℕ × RR) (h : pl < MAX_SIZE_BITS) :
    (refFinish position pl w).2 = vstate w.2 w.1 position := by
  rw [refFinish]
  simp only [if_pos h]
  rfl

theorem refFinish_drop_state (position : ℕ) (w : ℕ × RR) (h : w.1 ≠ 0) :
    (refFinish position MAX_SIZE_BITS w).2 = wstate w.2 w.1 := by
  rw [refFinish]
  simp only [if_neg (lt_irrefl MAX_SIZE_BITS), if_pos h]
  rfl

theorem refFinish_zero_state (position : ℕ) (w : ℕ × RR) (h : w.1 = 0) :
    (refFinish position MAX_SIZE_BITS w).2 = w.2 := by
  rw [refFinish]
  simp only [if_neg (lt_irrefl MAX_SIZE_BITS), if_neg (not_not_intro h)]

/-- One reference to a nonzero address preserves the full `RD_LogRR`
invariant. -/
theorem referenceRR_inv (a : ℕ) (s : RR) (ha : a ≠ 0) (hinv : InvRR s) :
    InvRR (referenceRR a s).2 := by
  obtain ⟨hm, hl, ho, hf, htr, hrp⟩ := hinv
  have h10 : MIN_SIZE_BITS = 10 := rfl
  have h24 : MAX_SIZE_BITS = 24 := rfl
  rw [referenceRR]
  cases hmap : s.entries_map a with
  | some position =>
    by_cases hps : position < MIN_SIZE
    · simp only [if_pos hps]
      exact ⟨hm, hl, ho, hf, htr, hrp⟩
    · simp only [if_neg hps]
      obtain ⟨haz, hlst, hvp⟩ := hm a position hmap
      have hposlt : position < MAX_SIZE := validSlot_lt hvp
      have hps' : MIN_SIZE ≤ position := not_lt.1 hps
      set L := int_log2 position with hL
      obtain ⟨hL1, hL2⟩ := pos_log2_le hps' hposlt
      have hL1' : 10 ≤ L := hL1
      have hL2' : L < 24 := hL2
      have hpos0 : 0 < position := by
        have hmin : MIN_SIZE = 2 ^ 10 := rfl
        omega
      have hposlt64 : position < 2 ^ 64 := by
        have hmax : MAX_SIZE = 2 ^ 24 := rfl
        have : (2 : ℕ) ^ 24 < 2 ^ 64 := by norm_num
        omega
      have hpowle : 2 ^ L ≤ position := by
        rw [hL, int_log2_eq _ hpos0 hposlt64, Nat.log2_eq_log_two]
        exact Nat.pow_log_le_self 2 hpos0.ne'
      have hfull : ∀ b, MIN_SIZE_BITS ≤ b →
          b < MIN_SIZE_BITS + (L - MIN_SIZE_BITS) → tierFull s b := by
        intro b hb1 hb2
        have hb1' : 10 ≤ b := hb1
        have hb2' : b < L := by omega
        refine hf b hb1 (by show b < 24; omega) ⟨position, ?_, ?_⟩
        · have : (2 : ℕ) ^ b ≤ 2 ^ L :=
            Nat.pow_le_pow_right (by norm_num) (by omega)
          omega
        · rw [hlst]
          exact haz
      have hm0 : mapOK (vstate s a position) := by
        intro x p hp
        simp only [vstate] at hp
        by_cases hx : x = a
        · rw [if_pos hx] at hp
          injection hp with hp
          subst hp
          refine ⟨hx ▸ ha, ?_, hvp⟩
          simp [vstate, hx]
        · rw [if_neg hx] at hp
          obtain ⟨hxz, hxl, hxv⟩ := hm x p hp
          refine ⟨hxz, ?_, hxv⟩
          have hphole : p ≠ position := by
            intro he
            rw [he, hlst] at hxl
            exact hx hxl.symm
          simp only [vstate, if_neg hphole]
          exact hxl
      have hl0 : listOK (vstate s a position) := by
        intro i hi
        by_cases hih : i = position
        · have h1 : (vstate s a position).entries_list i = a := by
            simp [vstate, hih]
          rw [h1]
          simp [vstate, hih]
        · have h1 : (vstate s a position).entries_list i = s.entries_list i := by
            simp [vstate, hih]
          rw [h1] at hi ⊢
          have hw := hl i hi
          have hwa : s.entries_list i ≠ a := by
            intro he
            rw [he, hmap] at hw
            injection hw with hw
            exact hih hw.symm
          simp only [vstate, if_neg hwa]
          exact hw
      have ho0 : occOK (vstate s a position) := by
        intro i hi
        by_cases hih : i = position
        · exact hih ▸ hvp
        · refine ho i ?_
          have h1 : (vstate s a position).entries_list i = s.entries_list i := by
            simp [vstate, hih]
          rw [h1] at hi
          exact hi
      obtain ⟨r1, r2, r3, r4, r5, r6⟩ :=
        refWalk_hit (L - MIN_SIZE_BITS) MIN_SIZE_BITS a s position
          le_rfl (by omega)
          (by
            have he : MIN_SIZE_BITS + (L - MIN_SIZE_BITS) = L := by omega
            rw [he]
            exact hpowle)
          hvp ha hfull hrp hm0 hl0 ho0
      rw [refFinish_hit_state position L _ hL2]
      set W := refWalk a s (List.range' MIN_SIZE_BITS (L - MIN_SIZE_BITS)) with hW
      have hocc : ∀ i, (vstate W.2 W.1 position).entries_list i ≠ 0 ↔
          s.entries_list i ≠ 0 := by
        intro i
        by_cases hih : i = position
        · constructor
          · intro _
            rw [hih, hlst]
            exact haz
          · intro _
            have h1 : (vstate W.2 W.1 position).entries_list i = W.1 := by
              simp [vstate, hih]
            rw [h1]
            exact r1
        · have h1 : (vstate W.2 W.1 position).entries_list i = W.2.entries_list i := by
            simp [vstate, hih]
          rw [h1]
          exact r5 i
      refine ⟨r2, r3, r4, fillOK_of_occ hocc hf, ?_, ?_⟩
      · intro b hb1 hb2
        by_cases hbin : b < L
        · exact Or.inl (tierFull_of_occ hocc (hfull b hb1 (by
            have : 10 ≤ b := hb1
            omega)))
        · have hrpeq : (vstate W.2 W.1 position).replace_position b =
              s.replace_position b := by
            have h1 : (vstate W.2 W.1 position).replace_position b =
                W.2.replace_position b := rfl
            rw [h1, hW]
            refine refWalk_rp_of_not_mem _ _ _ _ ?_
            rw [List.mem_range']
            rintro ⟨i, hi, rfl⟩
            have : 10 ≤ MIN_SIZE_BITS := by omega
            omega
          rcases htr b hb1 hb2 with hfl | hpt
          · exact Or.inl (tierFull_of_occ hocc hfl)
          · exact Or.inr (tierPartial_transfer hocc hrpeq hpt)
      · intro b hb1 hb2
        exact r6 b hb1 hb2
  | none =>
    have hnotin : ∀ i, s.entries_list i ≠ a := by
      intro i he
      have hw := hl i (by rw [he]; exact ha)
      rw [he, hmap] at hw
      cases hw
    have hm0 : mapOK (wstate s a) := by
      intro x p hp
      simp only [wstate] at hp
      by_cases hx : x = a
      · rw [if_pos hx] at hp
        cases hp
      · rw [if_neg hx] at hp
        obtain ⟨hxz, hxl, hxv⟩ := hm x p hp
        exact ⟨hxz, hxl, hxv⟩
    have hl0 : listOK (wstate s a) := by
      intro i hi
      have hi' : s.entries_list i ≠ 0 := hi
      have hw := hl i hi'
      show (if s.entries_list i = a then none else s.entries_map (s.entries_list i)) =
        some i
      rw [if_neg (hnotin i)]
      exact hw
    obtain ⟨r1, r2, r3, r4⟩ :=
      refWalk_miss (MAX_SIZE_BITS - MIN_SIZE_BITS) MIN_SIZE_BITS a s
        le_rfl (by omega) ha hnotin hm0 hl0 ho hf htr hrp
        (fun b hb1 hb2 => absurd (hb1.trans_lt hb2) (lt_irrefl _))
    set W := refWalk a s (List.range' MIN_SIZE_BITS (MAX_SIZE_BITS - MIN_SIZE_BITS))
      with hW
    rcases r4 with ⟨hz, hm2, hl2, ho2⟩ | ⟨hnz, hm2, hl2, ho2, hnin2⟩
    · rw [refFinish_zero_state _ _ hz]
      exact ⟨hm2, hl2, ho2, r1, r2, r3⟩
    · rw [refFinish_drop_state _ _ hnz]
      exact ⟨hm2, hl2, ho2, r1, r2, r3⟩

/-- The `RD_LogRR` invariant holds in every state reachable by nonzero
references. -/
theorem runRR_inv (l : List ℕ) (hl : ∀ a ∈ l, a ≠ 0) : InvRR (runRR l) := by
  induction l using List.reverseRecOn with
  | nil =>
    refine ⟨?_, ?_, ?_, ?_, ?_, ?_⟩
    · intro a p hp
      cases hp
    · intro i hi
      exact absurd rfl hi
    · intro i hi
      exact absurd rfl hi
    · intro b _ _ hex
      obtain ⟨j, _, hj⟩ := hex
      exact absurd rfl hj
    · intro b hb1 hb2
      right
      exact ⟨Nat.pos_pow_of_pos _ (by norm_num), fun c hc => by simp [runRR, RR.init]⟩
    · intro b _ _
      exact Nat.pos_pow_of_pos _ (by norm_num)
  | append_singleton l x ih =>
    rw [runRR_append_singleton]
    have hx : x ≠ 0 := hl x (by simp)
    have hprev : ∀ a ∈ l, a ≠ 0 := fun a haa => hl a (by simp [haa])
    exact referenceRR_inv x (runRR l) hx (ih hprev)

/-- Claim C6: after any sequence of references to nonzero addresses, the
position map `entries_map` holds exactly the addresses resident in
`entries_list` — every entry names the slot that actually stores its
address (so there are no more entries than resident addresses), every
resident address is mapped, and no two addresses share a slot. -/
theorem C6_position_map (l : List ℕ) (hl : ∀ a ∈ l, a ≠ 0) :
    (∀ a p, (runRR l).entries_map a = some p → (runRR l).entries_list p = a) ∧
      (∀ a, (∃ p, (runRR l).entries_map a = some p) ↔
        (a ≠ 0 ∧ ∃ i, (runRR l).entries_list i = a)) ∧
      (∀ a b p, (runRR l).entries_map a = some p → (runRR l).entries_map b = some p →
        a = b) := by
  obtain ⟨hm, hlst, -, -, -, -⟩ := runRR_inv l hl
  refine ⟨?_, ?_, ?_⟩
  · intro a p hp
    exact (hm a p hp).2.1
  · intro a
    constructor
    · rintro ⟨p, hp⟩
      obtain ⟨haz, hpl, -⟩ := hm a p hp
      exact ⟨haz, p, hpl⟩
    · rintro ⟨haz, i, hi⟩
      have := hlst i (by rw [hi]; exact haz)
      rw [hi] at this
      exact ⟨i, this⟩
  · intro a b p hpa hpb
    have h1 := (hm a p hpa).2.1
    have h2 := (hm b p hpb).2.1
    rw [h1] at h2
    exact h2

theorem C6_witness :
    (∀ a ∈ ([3, 7, 3] : List ℕ), a ≠ 0) ∧
      ((∀ a p, (runRR [3, 7, 3]).entries_map a = some p →
          (runRR [3, 7, 3]).entries_list p = a) ∧
        (∀ a, (∃ p, (runRR [3, 7, 3]).entries_map a = some p) ↔
          (a ≠ 0 ∧ ∃ i, (runRR [3, 7, 3]).entries_list i = a)) ∧
        (∀ a b p, (runRR [3, 7, 3]).entries_map a = some p →
          (runRR [3, 7, 3]).entries_map b = some p → a = b)) :=
  ⟨by decide, C6_position_map [3, 7, 3] (by decide)⟩

theorem C5_amended_witness :
    MIN_SIZE_BITS ≤ 10 ∧ (10 : ℕ) < MAX_SIZE_BITS ∧
      (((referenceRR 3 (runRR [7])).2.replace_position 10 =
          (runRR [7]).replace_position 10 ∨
        (referenceRR 3 (runRR [7])).2.replace_position 10 =
          ((runRR [7]).replace_position 10 + 1) % 2 ^ (10 - 1)) ∧
        (referenceRR 3 (runRR [7])).2.replace_position 10 < 2 ^ (10 - 1)) :=
  ⟨by decide, by decide, C5_amended [7] 3 10 (by decide) (by decide)⟩

end ReuseDistance
